import Mathlib

/-!
# duelistroses: the SPA static-file handler of `main.go`

The program is one HTTP handler (`main.go`, lines 26-39) and the helper `isDir`
(lines 53-59).  Everything else the handler does is done by the Go standard library:
`filepath.Join`, `os.Stat`, `http.ServeFile` and `http.FileServer(http.Dir(..))`.

The development has three layers.

* The library functions are translated from the Go standard library sources for Unix
  (`path/path.go`, `path/filepath/path.go`, `strings`, `net/http/fs.go`, `os`), keeping
  their names.  `path.Clean` is translated loop by loop and then shown to agree with a
  description on lists of path elements, on which the properties are proved.
* The operating system is a tree of directories, regular files and symbolic links,
  together with the working directory of the process.  Path resolution follows symbolic
  links (at most `MAXSYMLINKS` of them), a directory may be `locked` (no search
  permission) and a file may be unreadable; names with a NUL byte and names beyond
  `PATH_MAX` or `NAME_MAX` are refused.  So the errors `ENOENT`, `ENOTDIR`, `EACCES`,
  `EINVAL`, `ENAMETOOLONG` and `ELOOP` all occur.
* The handler of `main.go` is written in state-passing style over that file system; the
  library calls it makes read the state and return it unchanged (access times are not
  part of the state).  A run-time panic of the library is the result `none`.

Scope of the model.  Go strings are lists of characters (the functions involved only
inspect the ASCII bytes `/`, `.` and `\`, and lengths are counted in UTF-8 bytes).  A
request is its method, URL path, raw query and header.  How the conditional and range
headers are evaluated against the modification time, entity tag and size of a file
(`checkPreconditions`, `parseRange`) is not translated: it is the parameter
`http.Conditions`, over which the theorems quantify, and which is consulted only for
requests that carry such a header.  The `Content-Type`, `Last-Modified` and
`Content-Length` headers of a response are outside the model, and the HTML text of a
directory listing is kept abstract (the list of entry names).  A request is handled
against one file-system state: other requests running at the same time, and changes other
processes make to the files between the library calls of one request, are outside the
model.
-/

namespace Duelistroses

/-- Go strings, as lists of characters. -/
abbrev Str := List Char

/-! ## package strings -/

namespace strings

/-- Go `strings.HasPrefix`. -/
def HasPrefix (s pre : Str) : Bool := pre.isPrefixOf s

/-- Go `strings.HasSuffix`. -/
def HasSuffix (s suffix : Str) : Bool := suffix.isSuffixOf s

/-- Go `strings.TrimSuffix`. -/
def TrimSuffix (s suffix : Str) : Str :=
  if HasSuffix s suffix then s.take (s.length - suffix.length) else s

/-- Go `strings.Contains`. -/
def Contains : Str → Str → Bool
  | [], sub => sub.isPrefixOf []
  | c :: t, sub => sub.isPrefixOf (c :: t) || Contains t sub

/-- The loop of Go `strings.FieldsFunc`: `cur` is the field being read, reversed. -/
def fieldsAux (f : Char → Bool) : Str → List Char → List Str
  | [], cur => if cur = [] then [] else [cur.reverse]
  | c :: t, cur =>
    if f c then (if cur = [] then fieldsAux f t [] else cur.reverse :: fieldsAux f t [])
    else fieldsAux f t (c :: cur)

/-- Go `strings.FieldsFunc`: the maximal runs of characters not satisfying `f`. -/
def FieldsFunc (s : Str) (f : Char → Bool) : List Str := fieldsAux f s []

/-- The loop of Go `strings.Split` for a one-byte separator. -/
def splitAux (sep : Char) : Str → List Char → List Str
  | [], cur => [cur.reverse]
  | c :: t, cur => if c = sep then cur.reverse :: splitAux sep t [] else splitAux sep t (c :: cur)

/-- Go `strings.Split(s, string(sep))` for a one-byte separator. -/
def Split (s : Str) (sep : Char) : List Str := splitAux sep s []

/-- Go `strings.Join(elems, string(sep))` for a one-byte separator. -/
def Join : List Str → Char → Str
  | [], _ => []
  | [e], _ => e
  | e :: es, sep => e ++ sep :: Join es sep

end strings

/-! ## package path -/

namespace path

/-- The backtracking step of Go `path.Clean`, on the reversed output buffer:
`out.w--; for out.w > dotdot && out.index(out.w) != '/' { out.w-- }`. -/
def backtrack (dotdot : Nat) : List Char → List Char
  | [] => []
  | c :: out => if dotdot < out.length ∧ c ≠ '/' then backtrack dotdot out else out

/-- The main loop of Go `path.Clean`.  The second argument is the unread input `path[r:]`,
`out` is the output buffer reversed (`out.w` is its length) and `dotdot` is the index up to
which the buffer may not be backtracked.  Every iteration reads at least one character, so
`fuel = len(path)` iterations always suffice. -/
def cleanLoop (rooted : Bool) : Nat → Str → List Char → Nat → List Char
  | 0, _, out, _ => out
  | _, [], out, _ => out
  | fuel + 1, c :: t, out, dotdot =>
    if c = '/' then
      -- empty path element
      cleanLoop rooted fuel t out dotdot
    else if c = '.' ∧ (t = [] ∨ t.head? = some '/') then
      -- . element
      cleanLoop rooted fuel t out dotdot
    else if c = '.' ∧ t.head? = some '.' ∧ (t.tail = [] ∨ t.tail.head? = some '/') then
      -- .. element: remove to last /
      if dotdot < out.length then
        cleanLoop rooted fuel t.tail (backtrack dotdot out) dotdot
      else if rooted = false then
        let out1 := '.' :: '.' :: (if 0 < out.length then '/' :: out else out)
        cleanLoop rooted fuel t.tail out1 out1.length
      else
        cleanLoop rooted fuel t.tail out dotdot
    else
      -- real path element: add slash if needed, copy element
      let out1 :=
        if (rooted = true ∧ out.length ≠ 1) ∨ (rooted = false ∧ out.length ≠ 0)
        then '/' :: out else out
      cleanLoop rooted fuel ((c :: t).dropWhile (· != '/'))
        (((c :: t).takeWhile (· != '/')).reverse ++ out1) dotdot

/-- Go `path.Clean`. -/
def Clean (p : Str) : Str :=
  if p = [] then ['.'] else
  let out :=
    if p.head? = some '/' then cleanLoop true p.length p.tail ['/'] 1
    else cleanLoop false p.length p [] 0
  if out = [] then ['.'] else out.reverse

/-- Go `path.Base`. -/
def Base (p : Str) : Str :=
  if p = [] then ['.'] else
  -- strip trailing slashes
  let p1 := (p.reverse.dropWhile (· == '/')).reverse
  -- find the last element
  let p2 := (p1.reverse.takeWhile (· != '/')).reverse
  -- if empty now, it had only slashes
  if p2 = [] then ['/'] else p2

end path

/-! ## package path/filepath (Unix) -/

namespace filepath

/-- Go `filepath.Clean` on Unix: there is no volume name and the separator is `/`,
so it is the algorithm of `path.Clean`. -/
def Clean (p : Str) : Str := path.Clean p

/-- Go `filepath.Join` on Unix: the elements from the first non-empty one on are joined
with `/` and the result is cleaned; empty when all elements are empty. -/
def Join : List Str → Str
  | [] => []
  | e :: es => if e = [] then Join es else Clean (strings.Join (e :: es) '/')

/-- Go `filepath.Split` on Unix: the path up to and including the last `/`, and the rest. -/
def Split (p : Str) : Str × Str :=
  ((p.reverse.dropWhile (· != '/')).reverse, (p.reverse.takeWhile (· != '/')).reverse)

end filepath

/-- The path elements of a name: its maximal slash-free runs. -/
def segments (s : Str) : List Str := strings.FieldsFunc s (· == '/')

/-! ## The file system and package os -/

/-- A file-system object: a regular file (readable or not) with its bytes, a directory
with its entries, a directory the process may not search or read, or a symbolic link
with its target. -/
inductive Node where
  | file (readable : Bool) (content : Str)
  | dir (entries : List (Str × Node))
  | locked
  | link (target : Str)

/-- The file-system state seen by the process: the tree from `/` and the names leading
from `/` to the working directory. -/
structure FS where
  root : Node
  cwd : List Str

/-- The errors of `stat(2)` and `open(2)`. -/
inductive Errno where
  | ENOENT
  | ENOTDIR
  | EACCES
  | EINVAL
  | ENAMETOOLONG
  | ELOOP
deriving DecidableEq, Repr

/-- Go `fs.FileInfo`, reduced to `IsDir()`. -/
structure FileInfo where
  IsDir : Bool
deriving DecidableEq, Repr

/-- An open file: the name it was opened under and the object it refers to. -/
structure File where
  name : Str
  node : Node

/-- Linux `PATH_MAX`: the length of a path name, its terminating NUL included. -/
def PATH_MAX : Nat := 4096

/-- Linux `NAME_MAX`: the length of one path component. -/
def NAME_MAX : Nat := 255

/-- Linux `MAXSYMLINKS`: the number of symbolic links followed in one resolution. -/
def MAXSYMLINKS : Nat := 40

/-- The length of a string in bytes (UTF-8). -/
def byteLen (s : Str) : Nat := s.foldl (fun n c => n + c.utf8Size) 0

/-- A place in the tree: the directory entries (name and object) from the place up to
the root, nearest first; the empty chain is the root itself. -/
abbrev Loc := List (Str × Node)

namespace Node

/-- Whether `stat` reports the object as a directory. -/
def isDirectory : Node → Bool
  | file _ _ => false
  | dir _ => true
  | locked => true
  | link _ => false

/-- The entry called `name` among the entries of a directory. -/
def lookup (name : Str) : List (Str × Node) → Option Node
  | [] => none
  | (n, x) :: rest => if n = name then some x else lookup name rest

/-- The object at a place. -/
def current (root : Node) : Loc → Node
  | [] => root
  | (_, n) :: _ => n

/-- One component of path resolution, not following links: the current object must be a
directory that may be searched; `.` stays, `..` goes to the parent (the root is its own
parent), a name longer than `NAME_MAX` is refused and any other name is looked up. -/
def step (root : Node) (loc : Loc) (c : Str) : Except Errno Loc :=
  match current root loc with
  | file _ _ => .error .ENOTDIR
  | link _ => .error .ENOTDIR
  | locked => .error .EACCES
  | dir es =>
    if c = ['.'] then .ok loc
    else if c = ['.', '.'] then .ok loc.tail
    else if NAME_MAX < byteLen c then .error .ENAMETOOLONG
    else
      match lookup c es with
      | none => .error .ENOENT
      | some n => .ok ((c, n) :: loc)

/-- Where a walk along path components ends: at a place, or at a symbolic link found in
the directory `from_`, with the components still to be resolved after it. -/
inductive Walk where
  | done (loc : Loc)
  | atLink (from_ : Loc) (target : Str) (rest : List Str)

/-- Path resolution along a list of components, up to the first symbolic link. -/
def walk (root : Node) : Loc → List Str → Except Errno Walk
  | loc, [] => .ok (.done loc)
  | loc, c :: cs =>
    match step root loc c with
    | .error e => .error e
    | .ok loc1 =>
      match current root loc1 with
      | link target => .ok (.atLink loc target cs)
      | _ => walk root loc1 cs

/-- Path resolution following symbolic links: a link is replaced by its target, resolved
from `/` when the target is absolute and from the directory of the link otherwise; the
first argument is the number of links that may still be followed, and the number left is
returned with the place reached. -/
def follow (root : Node) : Nat → Loc → List Str → Except Errno (Nat × Loc)
  | 0, loc, cs =>
    match walk root loc cs with
    | .error e => .error e
    | .ok (.done loc1) => .ok (0, loc1)
    | .ok (.atLink _ _ _) => .error .ELOOP
  | budget + 1, loc, cs =>
    match walk root loc cs with
    | .error e => .error e
    | .ok (.done loc1) => .ok (budget + 1, loc1)
    | .ok (.atLink from_ target rest) =>
      if target = [] then .error .ENOENT
      else follow root budget (if target.head? = some '/' then [] else from_)
        (segments target ++ rest)

end Node

namespace FS

/-- Where resolution of `name` starts: at `/` for an absolute name, at the working
directory otherwise. -/
def start (fs : FS) (name : Str) : Except Errno Loc :=
  if name.head? = some '/' then .ok []
  else
    match Node.walk fs.root [] fs.cwd with
    | .ok (.done loc) => .ok loc
    | _ => .error .ENOENT

/-- The place a path name refers to, with the number of symbolic links that could still
have been followed: a name with a NUL byte is invalid (Go refuses it before the system
call), the empty name does not exist, a name of `PATH_MAX` bytes or more is too long,
and empty components are skipped. -/
def locate (fs : FS) (name : Str) : Except Errno (Nat × Loc) :=
  if Char.ofNat 0 ∈ name then .error .EINVAL
  else if name = [] then .error .ENOENT
  else if PATH_MAX ≤ byteLen name then .error .ENAMETOOLONG
  else
    match fs.start name with
    | .error e => .error e
    | .ok loc => Node.follow fs.root MAXSYMLINKS loc (segments name)

/-- The object a path name refers to, symbolic links followed; a name with a trailing
slash must refer to a directory. -/
def resolve (fs : FS) (name : Str) : Except Errno Node :=
  match fs.locate name with
  | .error e => .error e
  | .ok (_, loc) =>
    if name.getLast? = some '/' ∧ (Node.current fs.root loc).isDirectory = false
    then .error .ENOTDIR
    else .ok (Node.current fs.root loc)

/-- The real path of a name: the names from `/` to the object the name refers to. -/
def realpath (fs : FS) (name : Str) : Except Errno (List Str) :=
  match fs.locate name with
  | .error e => .error e
  | .ok (_, loc) => .ok (loc.reverse.map Prod.fst)

/-- The number of symbolic links followed in resolving a name. -/
def linksFollowed (fs : FS) (name : Str) : Except Errno Nat :=
  match fs.locate name with
  | .error e => .error e
  | .ok (left, _) => .ok (MAXSYMLINKS - left)

/-- The result of `stat(2)`. -/
def stat (fs : FS) (name : Str) : Except Errno FileInfo :=
  match fs.resolve name with
  | .error e => .error e
  | .ok n => .ok ⟨n.isDirectory⟩

/-- The result of `open(2)` for reading. -/
def openRead (fs : FS) (name : Str) : Except Errno File :=
  match fs.resolve name with
  | .error e => .error e
  | .ok (.file false _) => .error .EACCES
  | .ok .locked => .error .EACCES
  | .ok n => .ok ⟨name, n⟩

end FS

/-- The `error` value of a Go call that returned `(value, error)`; `none` is `nil`. -/
def errOf {α : Type} : Except Errno α → Option Errno
  | .error e => some e
  | .ok _ => none

namespace os

/-- Go `os.IsNotExist`: true exactly for `ENOENT` (and false for `nil`). -/
def IsNotExist : Option Errno → Bool
  | some .ENOENT => true
  | _ => false

/-- Go `os.Stat`: reads the file system and leaves it as it is. -/
def Stat (name : Str) (fs : FS) : Except Errno FileInfo × FS := (fs.stat name, fs)

end os

/-! ## package net/http -/

namespace http

/-- The parts of `*http.Request` that file serving looks at: the method, `URL.Path`,
`URL.RawQuery` and the header (canonical keys with their first value). -/
structure Request where
  Method : Str
  Path : Str
  RawQuery : Str
  Header : List (Str × Str)
deriving DecidableEq

/-- Go `Header.get`: the first value of the key, or the empty string. -/
def headerGet : List (Str × Str) → Str → Str
  | [], _ => []
  | (k, v) :: rest, key => if k = key then v else headerGet rest key

/-- What a handler wrote as the response body: nothing, a text of its own, the bytes of
the file opened as `name`, parts of these bytes (a range request), or the listing of the
directory opened as `name`. -/
inductive Body where
  | empty
  | text (msg : Str)
  | file (name : Str) (content : Str)
  | ranges (name : Str) (parts : List Str)
  | listing (name : Str) (entries : List Str)
deriving DecidableEq

/-- What a handler wrote to its `http.ResponseWriter`: the status code, the `Location`
header and the body. -/
structure Response where
  status : Nat
  location : Option Str
  body : Body
deriving DecidableEq

/-- What `checkPreconditions` and `parseRange` decide for a request that carries
conditional or range headers: send the content (the whole of it when there is no range),
304, 412, or 416 with a message. -/
inductive Decision where
  | proceed (ranges : List (Nat × Nat))
  | notModified
  | preconditionFailed
  | rangeNotSatisfiable (msg : Str)

/-- The part of `net/http/fs.go` that is not translated and is taken as a parameter: the
evaluation of the headers `If-Match`, `If-Unmodified-Since`, `If-None-Match`,
`If-Modified-Since`, `If-Range` and `Range` against the modification time, the entity tag
and the size of a file (`content`), and of `If-Modified-Since` against the modification
time of a directory (`dirNotModified`). -/
structure Conditions where
  content : Request → File → Decision
  dirNotModified : Request → File → Bool

/-- Go `http.StatusOK` and the other status codes used by `net/http/fs.go`. -/
def StatusOK : Nat := 200

/-- Go `http.StatusPartialContent`. -/
def StatusPartialContent : Nat := 206

/-- Go `http.StatusMovedPermanently`. -/
def StatusMovedPermanently : Nat := 301

/-- Go `http.StatusNotModified`. -/
def StatusNotModified : Nat := 304

/-- Go `http.StatusBadRequest`. -/
def StatusBadRequest : Nat := 400

/-- Go `http.StatusForbidden`. -/
def StatusForbidden : Nat := 403

/-- Go `http.StatusNotFound`. -/
def StatusNotFound : Nat := 404

/-- Go `http.StatusPreconditionFailed`. -/
def StatusPreconditionFailed : Nat := 412

/-- Go `http.StatusRequestedRangeNotSatisfiable`. -/
def StatusRequestedRangeNotSatisfiable : Nat := 416

/-- Go `http.StatusInternalServerError`. -/
def StatusInternalServerError : Nat := 500

/-- Go `http.Error` as used by `serveError`: the message and a newline with status `code`. -/
def serveError (msg : Str) (code : Nat) : Response :=
  ⟨code, none, .text (msg ++ ['\n'])⟩

/-- Go `toHTTPError`: 404 for not-exist, 403 for permission, 500 for any other error. -/
def toHTTPError : Errno → Str × Nat
  | .ENOENT => ("404 page not found".toList, StatusNotFound)
  | .EACCES => ("403 Forbidden".toList, StatusForbidden)
  | _ => ("500 Internal Server Error".toList, StatusInternalServerError)

/-- Go `localRedirect`: a 301 whose `Location` is `newPath`, with the query kept. -/
def localRedirect (r : Request) (newPath : Str) : Response :=
  ⟨StatusMovedPermanently,
   some (if r.RawQuery ≠ [] then newPath ++ '?' :: r.RawQuery else newPath), .empty⟩

/-- Go `isSlashRune`. -/
def isSlashRune (c : Char) : Bool := c == '/' || c == '\\'

/-- Go `containsDotDot`. -/
def containsDotDot (v : Str) : Bool :=
  if !strings.Contains v ['.', '.'] then false
  else (strings.FieldsFunc v isSlashRune).any (· == ['.', '.'])

/-- The loop of Go `mapOpenError` over `parts`; `done` are the parts already passed. -/
def mapOpenErrorLoop (originalErr : Errno) (fs : FS) : List Str → List Str → Errno
  | _, [] => originalErr
  | done, part :: rest =>
    if part = [] then mapOpenErrorLoop originalErr fs (done ++ [part]) rest
    else
      match fs.stat (strings.Join (done ++ [part]) '/') with
      | .error _ => originalErr
      | .ok fi =>
        if fi.IsDir = false then .ENOENT
        else mapOpenErrorLoop originalErr fs (done ++ [part]) rest

/-- Go `mapOpenError`: an error other than not-exist and permission becomes not-exist when
some prefix of the name is not a directory. -/
def mapOpenError (originalErr : Errno) (name : Str) (fs : FS) : Errno :=
  if originalErr = .ENOENT ∨ originalErr = .EACCES then originalErr
  else mapOpenErrorLoop originalErr fs [] (strings.Split name '/')

/-- The operating-system path that Go `http.Dir(d).Open(name)` opens:
`filepath.Join(dir, filepath.FromSlash(path.Clean("/"+name)))`. -/
def Dir.fullName (d : Str) (name : Str) : Str :=
  filepath.Join [if d = [] then ['.'] else d, path.Clean ('/' :: name)]

/-- Go `http.Dir(d).Open(name)` on Unix. -/
def Dir.Open (d : Str) (name : Str) (fs : FS) : Except Errno File :=
  match fs.openRead (Dir.fullName d name) with
  | .error e => .error (mapOpenError e (Dir.fullName d name) fs)
  | .ok f => .ok f

/-- Whether the request carries one of the headers that `checkPreconditions` evaluates;
without them it lets the request through with no range. -/
def carriesConditions (r : Request) : Bool :=
  ["If-Match".toList, "If-Unmodified-Since".toList, "If-None-Match".toList,
   "If-Modified-Since".toList, "Range".toList].any (fun key => headerGet r.Header key != [])

/-- Go `serveContent`: the preconditions may end the request with 412 or 304; a range that
cannot be satisfied gives 416; ranges larger in sum than the file are ignored; one or more
ranges give 206 with these parts and no range gives 200 with the whole file; the body is
not written for `HEAD`.  The multipart framing of several ranges is not modelled. -/
def serveContent (cond : Conditions) (r : Request) (f : File) (content : Str) : Response :=
  match (if carriesConditions r then cond.content r f else Decision.proceed []) with
  | .preconditionFailed => ⟨StatusPreconditionFailed, none, .empty⟩
  | .notModified => ⟨StatusNotModified, none, .empty⟩
  | .rangeNotSatisfiable msg => serveError msg StatusRequestedRangeNotSatisfiable
  | .proceed ranges =>
    if ranges = [] ∨ content.length < (ranges.map Prod.snd).sum then
      ⟨StatusOK, none, if r.Method = "HEAD".toList then .empty else .file f.name content⟩
    else
      ⟨StatusPartialContent, none,
       if r.Method = "HEAD".toList then .empty
       else .ranges f.name (ranges.map fun ra => (content.drop ra.1).take ra.2)⟩

/-- Go `dirList`: the names of the entries, directories with a trailing slash. -/
def dirList (f : File) (entries : List (Str × Node)) : Response :=
  ⟨StatusOK, none,
   .listing f.name (entries.map fun e => if e.2.isDirectory then e.1 ++ ['/'] else e.1)⟩

/-- Go `indexPage`. -/
def indexPage : Str := "/index.html".toList

/-- The end of Go `serveFile`, once the file `f` to send is chosen: a directory is listed,
unless `checkIfModifiedSince` (for `GET` and `HEAD` with the header set) answers 304, and a
regular file is sent by `serveContent`. -/
def serveOpened (cond : Conditions) (r : Request) (f : File) : Response :=
  match f.node with
  | .file _ content => serveContent cond r f content
  | .dir entries =>
    if (r.Method = "GET".toList ∨ r.Method = "HEAD".toList) ∧
        headerGet r.Header "If-Modified-Since".toList ≠ [] ∧ cond.dirNotModified r f = true
    then ⟨StatusNotModified, none, .empty⟩
    else dirList f entries
  | _ => serveError "Error reading directory".toList StatusInternalServerError

/-- The part of Go `serveFile` after the canonical-path redirects: a directory whose URL
does not end in a slash is redirected, a directory is answered with its `index.html` when
that can be opened, and anything else is sent as it is. -/
def serveEntry (cond : Conditions) (r : Request) (root name : Str) (f : File) (fs : FS) :
    Response :=
  if f.node.isDirectory = true then
    -- redirect if the directory name doesn't end in a slash
    if r.Path = [] ∨ r.Path.getLast? ≠ some '/' then
      localRedirect r (path.Base r.Path ++ ['/'])
    else
      -- use contents of index.html for directory, if present
      match Dir.Open root (strings.TrimSuffix name ['/'] ++ indexPage) fs with
      | .ok ff => serveOpened cond r ff
      | .error _ => serveOpened cond r f
  else serveOpened cond r f

/-- Go `serveFile(w, r, fs, name, redirect)` with `fs = http.Dir(root)`.  The result `none`
is a run-time panic: with `redirect` the code indexes `url[len(url)-1]`, which is out of
range for an empty URL path. -/
def serveFile (cond : Conditions) (r : Request) (root : Str) (name : Str) (redirect : Bool)
    (fs : FS) : Option Response :=
  -- redirect .../index.html to .../
  if strings.HasSuffix r.Path indexPage then some (localRedirect r "./".toList)
  else
    match Dir.Open root name fs with
    | .error e => some (serveError (toHTTPError e).1 (toHTTPError e).2)
    | .ok f =>
      if redirect = true then
        -- redirect to canonical path: / at end of directory url
        match r.Path.getLast? with
        | none => none
        | some last =>
          if f.node.isDirectory = true then
            if last ≠ '/' then some (localRedirect r (path.Base r.Path ++ ['/']))
            else some (serveEntry cond r root name f fs)
          else if last = '/' then
            if path.Base r.Path = ['/'] ∨ path.Base r.Path = ['.'] then
              -- the FileServer is serving the root as a file
              some (serveError "http: attempting to traverse a non-directory".toList
                StatusInternalServerError)
            else some (localRedirect r ("../".toList ++ path.Base r.Path))
          else some (serveEntry cond r root name f fs)
      else some (serveEntry cond r root name f fs)

/-- The response of Go `http.ServeFile(w, r, name)`. -/
def serveFileResponse (cond : Conditions) (r : Request) (name : Str) (fs : FS) :
    Option Response :=
  if containsDotDot r.Path then some (serveError "invalid URL path".toList StatusBadRequest)
  else serveFile cond r (filepath.Split name).1 (filepath.Split name).2 false fs

/-- The variable `upath` of Go `(*fileHandler).ServeHTTP`: the URL path, with a leading
slash supplied when it has none. -/
def upath (p : Str) : Str := if strings.HasPrefix p ['/'] then p else '/' :: p

/-- The response of Go `(*fileHandler).ServeHTTP` for `http.FileServer(http.Dir(root))`. -/
def fileHandlerResponse (cond : Conditions) (root : Str) (r : Request) (fs : FS) :
    Option Response :=
  serveFile cond { r with Path := upath r.Path } root (path.Clean (upath r.Path)) true fs

/-- Go `http.ServeFile`: answers from the file system and leaves it as it is. -/
def ServeFile (cond : Conditions) (r : Request) (name : Str) (fs : FS) :
    Option Response × FS :=
  (serveFileResponse cond r name fs, fs)

/-- Go `http.FileServer(http.Dir(root)).ServeHTTP`: answers from the file system and
leaves it as it is. -/
def FileServer (cond : Conditions) (root : Str) (r : Request) (fs : FS) :
    Option Response × FS :=
  (fileHandlerResponse cond root r fs, fs)

end http

/-! ## main.go -/

/-- The constant of `main.go`, line 12: `staticDir := "./web/dist"`. -/
def staticDir : Str := "./web/dist".toList

/-- The function of `main.go`, lines 53-59: `isDir`. -/
def isDir (p : Str) (fs : FS) : Bool × FS :=
  match os.Stat p fs with
  | (.error _, fs1) => (false, fs1)
  | (.ok info, fs1) => (info.IsDir, fs1)

/-- Which of its two library calls the handler makes. -/
inductive Route where
  | fallback (name : Str)
  | fileServer (r : http.Request)
deriving DecidableEq

/-- The condition of `main.go`, line 33, with Go's short-circuit evaluation:
`os.IsNotExist(err) || (err == nil && isDir(path))`. -/
def fallbackCond (p : Str) (err : Option Errno) (fs : FS) : Bool × FS :=
  if os.IsNotExist err then (true, fs)
  else if err = none then isDir p fs
  else (false, fs)

/-- The decision of the handler of `main.go`, lines 27-38: the fallback
`http.ServeFile(w, r, filepath.Join(staticDir, "index.html"))` or `fs.ServeHTTP(w, r)`. -/
def route (r : http.Request) (fs : FS) : Route × FS :=
  let p := filepath.Join [staticDir, r.Path]
  let st := os.Stat p fs
  let c := fallbackCond p (errOf st.1) st.2
  if c.1 then (.fallback (filepath.Join [staticDir, "index.html".toList]), c.2)
  else (.fileServer r, c.2)

/-- The handler registered for `"/"` in `main.go`, lines 26-39; `none` is a panic. -/
def handler (cond : http.Conditions) (r : http.Request) (fs : FS) :
    Option http.Response × FS :=
  match route r fs with
  | (.fallback name, fs1) => http.ServeFile cond r name fs1
  | (.fileServer r1, fs1) => http.FileServer cond staticDir r1 fs1

/-! ## Path elements

The functions below describe `Clean` on the list of path elements; they are used to
state and prove the properties of `Clean` and `Join`. -/

/-- The output buffer of `Clean` (reversed) when it holds only `k` elements `..`. -/
def dotsBuf (rooted : Bool) : Nat → List Char
  | 0 => if rooted then ['/'] else []
  | k + 1 =>
    '.' :: '.' :: (if 0 < (dotsBuf rooted k).length then '/' :: dotsBuf rooted k
                    else dotsBuf rooted k)

/-- Appending the element `e` to the (reversed) output buffer `out`, as the default case
of the loop of `Clean` does. -/
def pushElem (rooted : Bool) (out : List Char) (e : Str) : List Char :=
  e.reverse ++
    (if (rooted = true ∧ out.length ≠ 1) ∨ (rooted = false ∧ out.length ≠ 0)
     then '/' :: out else out)

/-- The (reversed) output buffer holding `k` elements `..` followed by the elements
`stack` (last element first). -/
def bufOf (rooted : Bool) (k : Nat) : List Str → List Char
  | [] => dotsBuf rooted k
  | e :: stack => pushElem rooted (bufOf rooted k stack) e

/-- One path element, on the element stack (last element first) and the number `k` of
leading `..` elements. -/
def elemStep (rooted : Bool) (st : List Str × Nat) (e : Str) : List Str × Nat :=
  if e = ['.'] then st
  else if e = ['.', '.'] then
    match st.1 with
    | _ :: stack => (stack, st.2)
    | [] => if rooted then st else ([], st.2 + 1)
  else (e :: st.1, st.2)

/-- All path elements in turn. -/
def elemRun (rooted : Bool) (st : List Str × Nat) (es : List Str) : List Str × Nat :=
  es.foldl (elemStep rooted) st

/-- An element as the default case of the loop copies it: not empty and without slash. -/
def IsElem (e : Str) : Prop := e ≠ [] ∧ '/' ∉ e

/-- The string `Clean` returns for a final element stack. -/
def finish (rooted : Bool) (st : List Str × Nat) : Str :=
  if bufOf rooted st.2 st.1 = [] then ['.'] else (bufOf rooted st.2 st.1).reverse

/-- The path, as a string, is the static root `web/dist` or lies below it, and has no
`..` element. -/
def withinRoot (q : Str) : Prop :=
  (q = "web/dist".toList ∨ "web/dist/".toList <+: q) ∧ ['.', '.'] ∉ segments q

/-- The element stack of the static root `./web/dist`. -/
def rootStack : List Str := ["dist".toList, "web".toList]


/-- Whether the `..` elements among the path elements `es` climb above the directory the
elements are read from: `depth` is the number of levels below that directory reached so
far, `.` stays, a name goes one level down, and `..` goes one level up, or climbs above
when the depth is zero. -/
def climbsAbove : List Str → Nat → Bool
  | [], _ => false
  | e :: es, depth =>
    if e = ['.'] then climbsAbove es depth
    else if e = ['.', '.'] then
      match depth with
      | 0 => true
      | d + 1 => climbsAbove es d
    else climbsAbove es (depth + 1)

/-! ## The handler: candidate, fallback document and example file systems -/

deriving instance DecidableEq for Except

/-- The candidate of the handler: `filepath.Join(staticDir, r.URL.Path)`. -/
def candidate (r : http.Request) : Str := filepath.Join [staticDir, r.Path]

/-- The fallback document: `filepath.Join(staticDir, "index.html")`. -/
def indexFile : Str := filepath.Join [staticDir, "index.html".toList]

/-- A `GET` request for the URL path `p`, without query and without headers. -/
def GET (p : Str) : http.Request := ⟨"GET".toList, p, [], []⟩

/-- A value for the untranslated part of the library in closed examples: every request is
let through with no range.  The requests of the examples that use it carry none of the
headers concerned, so it is not consulted. -/
def plain : http.Conditions := ⟨fun _ _ => .proceed [], fun _ _ => false⟩

/-- The static root of the scenario: exactly `index.html` ("A") and `app.js` ("B"). -/
def scenarioDist : Node :=
  .dir [("index.html".toList, .file true "A".toList), ("app.js".toList, .file true "B".toList)]

/-- A file system for the scenario: the project is `/srv/app`, the working directory
of the process, and its static root is `/srv/app/web/dist`; there is a file `/etc/passwd`. -/
def scenario : FS :=
  ⟨.dir [("etc".toList, .dir [("passwd".toList, .file true "root:x:0:0".toList)]),
         ("srv".toList, .dir [("app".toList, .dir [("web".toList,
            .dir [("dist".toList, scenarioDist)])])])],
   ["srv".toList, "app".toList]⟩

instance (q : Str) : Decidable (withinRoot q) := by unfold withinRoot; infer_instance

/-- The operating-system path a body was read from: the file whose bytes were sent, whole
or in parts, or the directory that was listed. -/
def http.Body.source : http.Body → Option Str
  | .file name _ => some name
  | .ranges name _ => some name
  | .listing name _ => some name
  | _ => none

/-- The place of the static root with the link budget left there: the resolution of `web`,
`dist` from the working directory. -/
def rootState (fs : FS) : Except Errno (Nat × Loc) :=
  match fs.start staticDir with
  | .error e => .error e
  | .ok loc => Node.follow fs.root MAXSYMLINKS loc ["web".toList, "dist".toList]

/-- The body `b` was read from what the path `nm` resolves to: a whole file is the contents
of the readable regular file there and the parts of a range answer are pieces of them. -/
def readFrom (fs : FS) (b : http.Body) (nm : Str) : Prop :=
  (∃ node, fs.resolve nm = .ok node) ∧
  (∀ c, b = .file nm c → fs.resolve nm = .ok (.file true c)) ∧
  (∀ parts, b = .ranges nm parts →
    ∃ c, fs.resolve nm = .ok (.file true c) ∧
      ∀ part ∈ parts, ∃ start len, part = (c.drop start).take len)

/-- A second static root: besides `index.html` and `app.js` it has a directory `assets`,
a directory `private` that the server may not search and a file `secret.txt` that the
server may not read. -/
def siteDist : Node :=
  .dir [("index.html".toList, .file true "A".toList), ("app.js".toList, .file true "B".toList),
        ("assets".toList, .dir [("x.css".toList, .file true "C".toList)]),
        ("private".toList, .locked),
        ("secret.txt".toList, .file false "S".toList)]

/-- The file system of the second static root, with working directory `/`. -/
def site : FS := ⟨.dir [("web".toList, .dir [("dist".toList, siteDist)])], []⟩

/-- An empty file system: the static root does not exist. -/
def noSite : FS := ⟨.dir [], []⟩

/-- A file system in which `web` is a regular file: the static root does not exist, and
`os.Stat` on it fails with `ENOTDIR`. -/
def flatSite : FS := ⟨.dir [("web".toList, .file true "w".toList)], []⟩

/-- The scenario with one more entry in the static root: the symbolic link `leak`, which
points to `/etc/passwd`. -/
def linked : FS :=
  ⟨.dir [("etc".toList, .dir [("passwd".toList, .file true "root:x:0:0".toList)]),
         ("srv".toList, .dir [("app".toList, .dir [("web".toList,
            .dir [("dist".toList,
              .dir [("index.html".toList, .file true "A".toList),
                    ("app.js".toList, .file true "B".toList),
                    ("leak".toList, .link "/etc/passwd".toList)])])])])],
   ["srv".toList, "app".toList]⟩

/-- A static root whose `index.html` exists and may not be read by the server. -/
def unreadableIndex : FS :=
  ⟨.dir [("web".toList, .dir [("dist".toList,
      .dir [("index.html".toList, .file false "A".toList)])])], []⟩

/-- A value for the untranslated part of the library in closed examples, covering the
header `If-None-Match: *`: `checkIfNoneMatch` answers `condFalse` for `*`, and
`checkPreconditions` then ends a `GET` or `HEAD` request with 304. -/
def starCond : http.Conditions :=
  ⟨fun r _ => if http.headerGet r.Header "If-None-Match".toList = "*".toList
              then .notModified else .proceed [],
   fun _ _ => false⟩

/-- A `HEAD` request for the URL path `p`, without query and without headers. -/
def HEAD (p : Str) : http.Request := ⟨"HEAD".toList, p, [], []⟩

/-- A `GET` request for the URL path `p` with the header `If-None-Match: *`. -/
def GETIfNoneMatch (p : Str) : http.Request :=
  ⟨"GET".toList, p, [], [("If-None-Match".toList, "*".toList)]⟩

/-- The URL path `/a` followed by a NUL byte. -/
def nulPath : Str := ['/', 'a', Char.ofNat 0]

/-! ## The library functions on the test tables of the Go standard library -/

/-- The model of `path.Clean` on the table `cleantests` of Go's `path/path_test.go`. -/
theorem Clean_conformance :
    path.Clean "".toList = ".".toList ∧
    path.Clean "abc".toList = "abc".toList ∧
    path.Clean "abc/def".toList = "abc/def".toList ∧
    path.Clean "a/b/c".toList = "a/b/c".toList ∧
    path.Clean ".".toList = ".".toList ∧
    path.Clean "..".toList = "..".toList ∧
    path.Clean "../..".toList = "../..".toList ∧
    path.Clean "../../abc".toList = "../../abc".toList ∧
    path.Clean "/abc".toList = "/abc".toList ∧
    path.Clean "/".toList = "/".toList ∧
    path.Clean "abc/".toList = "abc".toList ∧
    path.Clean "abc/def/".toList = "abc/def".toList ∧
    path.Clean "a/b/c/".toList = "a/b/c".toList ∧
    path.Clean "./".toList = ".".toList ∧
    path.Clean "../".toList = "..".toList ∧
    path.Clean "../../".toList = "../..".toList ∧
    path.Clean "/abc/".toList = "/abc".toList ∧
    path.Clean "abc//def//ghi".toList = "abc/def/ghi".toList ∧
    path.Clean "//abc".toList = "/abc".toList ∧
    path.Clean "///abc".toList = "/abc".toList ∧
    path.Clean "//abc//".toList = "/abc".toList ∧
    path.Clean "abc//".toList = "abc".toList ∧
    path.Clean "abc/./def".toList = "abc/def".toList ∧
    path.Clean "/./abc/def".toList = "/abc/def".toList ∧
    path.Clean "abc/.".toList = "abc".toList ∧
    path.Clean "abc/def/ghi/../jkl".toList = "abc/def/jkl".toList ∧
    path.Clean "abc/def/../ghi/../jkl".toList = "abc/jkl".toList ∧
    path.Clean "abc/def/..".toList = "abc".toList ∧
    path.Clean "abc/def/../..".toList = ".".toList ∧
    path.Clean "/abc/def/../..".toList = "/".toList ∧
    path.Clean "abc/def/../../..".toList = "..".toList ∧
    path.Clean "/abc/def/../../..".toList = "/".toList ∧
    path.Clean "abc/def/../../../ghi/jkl/../../../mno".toList = "../../mno".toList ∧
    path.Clean "abc/./../def".toList = "def".toList ∧
    path.Clean "abc//./../def".toList = "def".toList ∧
    path.Clean "abc/../../././../def".toList = "../../def".toList := by
  decide

/-- The models of `path.Base`, `filepath.Join` and `filepath.Split` on entries of the
tables `basetests`, `jointests` and `unixsplittests` of the Go standard library. -/
theorem Base_Join_Split_conformance :
    path.Base "".toList = ".".toList ∧
    path.Base ".".toList = ".".toList ∧
    path.Base "/.".toList = ".".toList ∧
    path.Base "/".toList = "/".toList ∧
    path.Base "////".toList = "/".toList ∧
    path.Base "x/".toList = "x".toList ∧
    path.Base "abc".toList = "abc".toList ∧
    path.Base "abc/def".toList = "def".toList ∧
    path.Base "a/b/.x".toList = ".x".toList ∧
    path.Base "a/b/c.".toList = "c.".toList ∧
    path.Base "a/b/c.x".toList = "c.x".toList ∧
    filepath.Join [] = [] ∧
    filepath.Join [[]] = [] ∧
    filepath.Join ["/".toList] = "/".toList ∧
    filepath.Join ["a".toList] = "a".toList ∧
    filepath.Join ["a".toList, "b".toList] = "a/b".toList ∧
    filepath.Join ["a".toList, []] = "a".toList ∧
    filepath.Join [[], "b".toList] = "b".toList ∧
    filepath.Join ["/".toList, "a".toList] = "/a".toList ∧
    filepath.Join ["/".toList, "a/b".toList] = "/a/b".toList ∧
    filepath.Join ["/".toList, []] = "/".toList ∧
    filepath.Join ["/a".toList, "b".toList] = "/a/b".toList ∧
    filepath.Join ["a".toList, "/b".toList] = "a/b".toList ∧
    filepath.Join ["/a".toList, "/b".toList] = "/a/b".toList ∧
    filepath.Join ["a/".toList, "b".toList] = "a/b".toList ∧
    filepath.Join ["a/".toList, []] = "a".toList ∧
    filepath.Join [[], []] = [] ∧
    filepath.Split "a/b".toList = ("a/".toList, "b".toList) ∧
    filepath.Split "a/b/".toList = ("a/b/".toList, []) ∧
    filepath.Split "a/".toList = ("a/".toList, []) ∧
    filepath.Split "a".toList = ([], "a".toList) ∧
    filepath.Split "/".toList = ("/".toList, []) := by
  decide

/-! ## Properties of `Clean` and `Join` -/

theorem fieldsAux_acc (f : Char → Bool) (s : Str) (cur : List Char) (h : cur ≠ []) :
    strings.fieldsAux f s cur
      = (cur.reverse ++ s.takeWhile (fun c => !f c)) ::
          strings.fieldsAux f (s.dropWhile (fun c => !f c)) [] := by
  induction s generalizing cur with
  | nil => simp [strings.fieldsAux, h]
  | cons c t ih =>
    by_cases hc : f c = true
    · simp [strings.fieldsAux, hc, h, List.takeWhile, List.dropWhile]
    · have hc2 : f c = false := by simpa using hc
      simp [strings.fieldsAux, hc2, List.takeWhile, List.dropWhile]
      rw [ih (c :: cur) (by simp)]
      simp

theorem segments_nil : segments [] = [] := by
  simp [segments, strings.FieldsFunc, strings.fieldsAux]

theorem segments_slash (t : Str) : segments ('/' :: t) = segments t := by
  simp [segments, strings.FieldsFunc, strings.fieldsAux]

theorem segments_cons (c : Char) (t : Str) (hc : c ≠ '/') :
    segments (c :: t)
      = (c :: t).takeWhile (· != '/') :: segments ((c :: t).dropWhile (· != '/')) := by
  have h1 : (c == '/') = false := by simpa using hc
  have h2 : (c != '/') = true := by simpa using hc
  simp only [segments, strings.FieldsFunc, strings.fieldsAux, h1]
  simp only [Bool.false_eq_true, if_false]
  rw [fieldsAux_acc _ t [c] (by simp)]
  simp [List.takeWhile, List.dropWhile, h2]
  exact ⟨rfl, rfl⟩

theorem backtrack_slash (dd : Nat) (e b : List Char) (he : '/' ∉ e) (hb : dd ≤ b.length) :
    path.backtrack dd (e ++ '/' :: b) = b := by
  induction e with
  | nil => simp [path.backtrack]
  | cons c t ih =>
    have hc : c ≠ '/' := by intro h; apply he; simp [h]
    have ht : '/' ∉ t := by intro h; apply he; simp [h]
    simp only [List.cons_append, path.backtrack]
    rw [if_pos]
    · exact ih ht
    · refine ⟨?_, hc⟩
      simp; omega

theorem backtrack_flush (dd : Nat) (e b : List Char) (he : '/' ∉ e) (hne : e ≠ [])
    (hb : b.length = dd) : path.backtrack dd (e ++ b) = b := by
  induction e with
  | nil => exact absurd rfl hne
  | cons c t ih =>
    have hc : c ≠ '/' := by intro h; apply he; simp [h]
    have ht : '/' ∉ t := by intro h; apply he; simp [h]
    simp only [List.cons_append, path.backtrack]
    by_cases htn : t = []
    · subst htn; simp [hb]
    · rw [if_pos]
      · exact ih ht htn
      · refine ⟨?_, hc⟩
        have : 0 < t.length := List.length_pos.mpr htn
        simp; omega

theorem bufOf_length_ge (rooted : Bool) (k : Nat) (stack : List Str) :
    (dotsBuf rooted k).length ≤ (bufOf rooted k stack).length := by
  induction stack with
  | nil => simp [bufOf]
  | cons e s ih =>
    simp only [bufOf, pushElem]
    split <;> simp <;> omega

theorem bufOf_length_gt (rooted : Bool) (k : Nat) (e : Str) (stack : List Str) (he : e ≠ []) :
    (dotsBuf rooted k).length < (bufOf rooted k (e :: stack)).length := by
  have h := bufOf_length_ge rooted k stack
  have : 0 < e.length := List.length_pos.mpr he
  simp only [bufOf, pushElem]
  split <;> simp <;> omega

theorem backtrack_pushElem (rooted : Bool) (k : Nat) (e : Str) (stack : List Str)
    (he : IsElem e) (hk : rooted = true → k = 0) :
    path.backtrack (dotsBuf rooted k).length (bufOf rooted k (e :: stack))
      = bufOf rooted k stack := by
  have hge := bufOf_length_ge rooted k stack
  have hrev : '/' ∉ e.reverse := by simpa using he.2
  have hne : e.reverse ≠ [] := by simpa using he.1
  simp only [bufOf, pushElem]
  split
  · exact backtrack_slash _ _ _ hrev hge
  · rename_i hc
    apply backtrack_flush _ _ _ hrev hne
    cases rooted with
    | true =>
      have := hk rfl; subst this
      simp at hc
      simp [dotsBuf, hc]
    | false =>
      simp at hc
      rw [hc] at hge ⊢
      have h0 : (dotsBuf false k).length = 0 := Nat.le_zero.mp hge
      rw [h0]; rfl

theorem takeWhile_isElem (c : Char) (t : Str) (hc : c ≠ '/') :
    IsElem ((c :: t).takeWhile (· != '/')) := by
  constructor
  · rw [List.takeWhile_cons]; simp [hc]
  · intro h
    have := List.mem_takeWhile_imp h
    simp at this

theorem takeWhile_eq_nil (t : Str) (h : t.takeWhile (· != '/') = []) :
    t = [] ∨ t.head? = some '/' := by
  rcases t with _ | ⟨d, t'⟩
  · left; rfl
  · right
    rw [List.takeWhile_cons] at h
    by_cases hd : d = '/'
    · simp [hd]
    · simp [hd] at h

theorem takeWhile_eq_cons (c x : Char) (t xs : Str)
    (h : (c :: t).takeWhile (· != '/') = x :: xs) :
    c = x ∧ t.takeWhile (· != '/') = xs := by
  rw [List.takeWhile_cons] at h
  by_cases hd : c = '/'
  · simp [hd] at h
  · simpa [hd] using h

theorem cleanLoop_succ (rooted : Bool) (fuel : Nat) (c : Char) (t : Str) (out : List Char)
    (dotdot : Nat) :
    path.cleanLoop rooted (fuel + 1) (c :: t) out dotdot
      = if c = '/' then path.cleanLoop rooted fuel t out dotdot
        else if c = '.' ∧ (t = [] ∨ t.head? = some '/') then
          path.cleanLoop rooted fuel t out dotdot
        else if c = '.' ∧ t.head? = some '.' ∧ (t.tail = [] ∨ t.tail.head? = some '/') then
          if dotdot < out.length then
            path.cleanLoop rooted fuel t.tail (path.backtrack dotdot out) dotdot
          else if rooted = false then
            path.cleanLoop rooted fuel t.tail
              ('.' :: '.' :: (if 0 < out.length then '/' :: out else out))
              ('.' :: '.' :: (if 0 < out.length then '/' :: out else out)).length
          else path.cleanLoop rooted fuel t.tail out dotdot
        else
          path.cleanLoop rooted fuel ((c :: t).dropWhile (· != '/'))
            (((c :: t).takeWhile (· != '/')).reverse ++
              (if (rooted = true ∧ out.length ≠ 1) ∨ (rooted = false ∧ out.length ≠ 0)
               then '/' :: out else out)) dotdot := by
  rw [path.cleanLoop]

theorem length_dropWhile_cons_le (c : Char) (t : Str) (hc : c ≠ '/') :
    ((c :: t).dropWhile (· != '/')).length ≤ t.length := by
  have h2 : (c != '/') = true := by simpa using hc
  simp only [List.dropWhile, h2]
  exact (List.dropWhile_sublist _).length_le

theorem elemRun_cons (rooted : Bool) (st : List Str × Nat) (e : Str) (es : List Str) :
    elemRun rooted st (e :: es) = elemRun rooted (elemStep rooted st e) es := rfl

theorem elemRun_nil (rooted : Bool) (st : List Str × Nat) : elemRun rooted st [] = st := rfl

theorem cleanLoop_eq (rooted : Bool) :
    ∀ (fuel : Nat) (rest : Str) (stack : List Str) (k : Nat),
      rest.length ≤ fuel → (∀ e ∈ stack, IsElem e) → (rooted = true → k = 0) →
      path.cleanLoop rooted fuel rest (bufOf rooted k stack) (dotsBuf rooted k).length
        = bufOf rooted (elemRun rooted (stack, k) (segments rest)).2
            (elemRun rooted (stack, k) (segments rest)).1 := by
  intro fuel
  induction fuel with
  | zero =>
    intro rest stack k hlen _ _
    have : rest = [] := List.length_eq_zero.mp (Nat.le_zero.mp hlen)
    subst this
    simp [path.cleanLoop, segments_nil, elemRun_nil]
  | succ fuel ih =>
    intro rest stack k hlen hst hk
    rcases rest with _ | ⟨c, t⟩
    · simp [path.cleanLoop, segments_nil, elemRun_nil]
    · have hlt : t.length ≤ fuel := by simpa using hlen
      by_cases hc : c = '/'
      · subst hc
        simp only [path.cleanLoop, if_true, segments_slash]
        exact ih t stack k hlt hst hk
      · have hseg := segments_cons c t hc
        have hdrop := length_dropWhile_cons_le c t hc
        have helem := takeWhile_isElem c t hc
        have hc2 : (c != '/') = true := by simpa using hc
        by_cases hdot : c = '.' ∧ (t = [] ∨ t.head? = some '/')
        · -- the element `.`
          obtain ⟨rfl, ht⟩ := hdot
          have htw : ('.' :: t).takeWhile (· != '/') = ['.'] := by
            rcases ht with rfl | ht
            · rfl
            · rcases t with _ | ⟨d, t'⟩
              · rfl
              · simp at ht; subst ht; rfl
          have hdw : ('.' :: t).dropWhile (· != '/') = t := by
            rcases ht with rfl | ht
            · rfl
            · rcases t with _ | ⟨d, t'⟩
              · rfl
              · simp at ht; subst ht; rfl
          rw [hseg, htw, hdw, elemRun_cons]
          have : elemStep rooted (stack, k) ['.'] = (stack, k) := by simp [elemStep]
          rw [this]
          have hcl : path.cleanLoop rooted (fuel + 1) ('.' :: t) (bufOf rooted k stack)
              (dotsBuf rooted k).length
              = path.cleanLoop rooted fuel t (bufOf rooted k stack) (dotsBuf rooted k).length := by
            rw [cleanLoop_succ, if_neg hc, if_pos ⟨rfl, ht⟩]
          rw [hcl]
          exact ih t stack k hlt hst hk
        · by_cases hdd : c = '.' ∧ t.head? = some '.' ∧ (t.tail = [] ∨ t.tail.head? = some '/')
          · -- the element `..`
            obtain ⟨rfl, hh, ht⟩ := hdd
            rcases t with _ | ⟨d, t'⟩
            · simp at hh
            · simp at hh; subst hh
              simp only [List.tail_cons] at ht
              have hlt2 : t'.length ≤ fuel := by simp at hlt; omega
              have htw : ('.' :: '.' :: t').takeWhile (· != '/') = ['.', '.'] := by
                rcases ht with rfl | ht
                · rfl
                · rcases t' with _ | ⟨d, t''⟩
                  · rfl
                  · simp at ht; subst ht; rfl
              have hdw : ('.' :: '.' :: t').dropWhile (· != '/') = t' := by
                rcases ht with rfl | ht
                · rfl
                · rcases t' with _ | ⟨d, t''⟩
                  · rfl
                  · simp at ht; subst ht; rfl
              rw [hseg, htw, hdw, elemRun_cons]
              have hcl : ∀ out dd, path.cleanLoop rooted (fuel + 1) ('.' :: '.' :: t') out dd
                  = if dd < out.length then
                      path.cleanLoop rooted fuel t' (path.backtrack dd out) dd
                    else if rooted = false then
                      path.cleanLoop rooted fuel t'
                        ('.' :: '.' :: (if 0 < out.length then '/' :: out else out))
                        ('.' :: '.' :: (if 0 < out.length then '/' :: out else out)).length
                    else path.cleanLoop rooted fuel t' out dd := by
                intro out dd
                rw [cleanLoop_succ, if_neg hc, if_neg hdot,
                  if_pos ⟨rfl, by simp, by simpa using ht⟩]
                simp only [List.tail_cons]
              rw [hcl]
              rcases stack with _ | ⟨e, s⟩
              · -- nothing to backtrack over
                have hnlt : ¬ (dotsBuf rooted k).length < (bufOf rooted k []).length := by
                  simp [bufOf]
                rw [if_neg hnlt]
                cases rooted with
                | true =>
                  have : elemStep true ([], k) ['.', '.'] = ([], k) := by
                    simp [elemStep]
                  rw [this]
                  simp only [Bool.true_eq_false, if_false]
                  exact ih t' [] k hlt2 hst hk
                | false =>
                  have : elemStep false ([], k) ['.', '.'] = ([], k + 1) := by
                    simp [elemStep]
                  rw [this]
                  simp only [if_true]
                  have h1 : ('.' :: '.' :: (if 0 < (bufOf false k []).length
                      then '/' :: bufOf false k [] else bufOf false k []))
                      = bufOf false (k + 1) [] := by
                    simp [bufOf, dotsBuf]
                  rw [h1]
                  have h2 : (bufOf false (k + 1) []).length = (dotsBuf false (k + 1)).length := by
                    simp [bufOf]
                  rw [h2]
                  exact ih t' [] (k + 1) hlt2 hst (by simp)
              · have he : IsElem e := hst e (by simp)
                have hgt := bufOf_length_gt rooted k e s he.1
                rw [if_pos hgt, backtrack_pushElem rooted k e s he hk]
                have : elemStep rooted (e :: s, k) ['.', '.'] = (s, k) := by
                  simp [elemStep]
                rw [this]
                exact ih t' s k hlt2 (fun x hx => hst x (by simp [hx])) hk
          · -- a real element
            have hne1 : (c :: t).takeWhile (· != '/') ≠ ['.'] := by
              intro h
              apply hdot
              obtain ⟨h1, h2⟩ := takeWhile_eq_cons _ _ _ _ h
              exact ⟨h1, takeWhile_eq_nil t h2⟩
            have hne2 : (c :: t).takeWhile (· != '/') ≠ ['.', '.'] := by
              intro h
              apply hdd
              obtain ⟨h1, h2⟩ := takeWhile_eq_cons _ _ _ _ h
              rcases t with _ | ⟨d, t'⟩
              · simp at h2
              · obtain ⟨h3, h4⟩ := takeWhile_eq_cons _ _ _ _ h2
                exact ⟨h1, by simp [h3], by simpa using takeWhile_eq_nil t' h4⟩
            rw [hseg, elemRun_cons]
            have : elemStep rooted (stack, k) ((c :: t).takeWhile (· != '/'))
                = ((c :: t).takeWhile (· != '/') :: stack, k) := by
              simp only [elemStep]
              rw [if_neg hne1, if_neg hne2]
            rw [this]
            have hcl : path.cleanLoop rooted (fuel + 1) (c :: t) (bufOf rooted k stack)
                (dotsBuf rooted k).length
                = path.cleanLoop rooted fuel ((c :: t).dropWhile (· != '/'))
                    (bufOf rooted k ((c :: t).takeWhile (· != '/') :: stack))
                    (dotsBuf rooted k).length := by
              rw [cleanLoop_succ, if_neg hc, if_neg hdot, if_neg hdd]
              rfl
            rw [hcl]
            apply ih _ _ k (le_trans hdrop hlt) _ hk
            intro x hx
            rcases List.mem_cons.mp hx with rfl | hx
            · exact helem
            · exact hst x hx

theorem Clean_rooted (t : Str) :
    path.Clean ('/' :: t) = finish true (elemRun true ([], 0) (segments t)) := by
  have h := cleanLoop_eq true ('/' :: t).length t [] 0 (by simp) (by simp) (by simp)
  simp only [bufOf, dotsBuf, if_true, List.length_singleton] at h
  simp only [path.Clean, List.head?_cons, List.tail_cons, if_true, finish]
  rw [if_neg (by simp), h]

theorem Clean_unrooted (p : Str) (hp : p ≠ []) (hr : p.head? ≠ some '/') :
    path.Clean p = finish false (elemRun false ([], 0) (segments p)) := by
  have h := cleanLoop_eq false p.length p [] 0 (by simp) (by simp) (by simp)
  simp only [bufOf, dotsBuf, Bool.false_eq_true, if_false, List.length_nil] at h
  simp only [path.Clean, finish]
  rw [if_neg hp, if_neg hr, h]

theorem fieldsAux_append (f : Char → Bool) (sep : Char) (hsep : f sep = true) (a b : Str) :
    ∀ cur : List Char,
      strings.fieldsAux f (a ++ sep :: b) cur
        = strings.fieldsAux f a cur ++ strings.fieldsAux f b [] := by
  induction a with
  | nil =>
    intro cur
    by_cases hcur : cur = [] <;> simp [strings.fieldsAux, hsep, hcur]
  | cons c t ih =>
    intro cur
    by_cases hc : f c = true
    · by_cases hcur : cur = [] <;> simp [strings.fieldsAux, hc, hcur, ih]
    · have hc2 : f c = false := by simpa using hc
      simp [strings.fieldsAux, hc2, ih]

theorem segments_append (a b : Str) : segments (a ++ '/' :: b) = segments a ++ segments b :=
  fieldsAux_append _ '/' (by simp) a b []

theorem fieldsAux_noSep (f : Char → Bool) (e : Str) (he : ∀ c ∈ e, f c = false) :
    ∀ cur : List Char,
      strings.fieldsAux f e cur
        = if cur.reverse ++ e = [] then [] else [cur.reverse ++ e] := by
  induction e with
  | nil => intro cur; by_cases hcur : cur = [] <;> simp [strings.fieldsAux, hcur]
  | cons c t ih =>
    intro cur
    have hc : f c = false := he c (by simp)
    have h := ih (fun x hx => he x (by simp [hx])) (c :: cur)
    simp only [strings.fieldsAux, hc, Bool.false_eq_true, if_false]
    rw [h]
    simp

theorem segments_elem (e : Str) (he : IsElem e) : segments e = [e] := by
  have h := fieldsAux_noSep (· == '/') e (by
    intro c hc
    have : c ≠ '/' := by intro h; exact he.2 (h ▸ hc)
    simpa using this) []
  simp only [segments, strings.FieldsFunc, h]
  simp [he.1]

theorem mem_fieldsAux (f : Char → Bool) (s : Str) :
    ∀ (cur : List Char) (e : Str), (∀ c ∈ cur, f c = false) →
      e ∈ strings.fieldsAux f s cur → e ≠ [] ∧ ∀ c ∈ e, f c = false := by
  induction s with
  | nil =>
    intro cur e hcur he
    by_cases h : cur = []
    · simp [strings.fieldsAux, h] at he
    · simp [strings.fieldsAux, h] at he
      subst he
      exact ⟨by simpa using h, by simpa using hcur⟩
  | cons c t ih =>
    intro cur e hcur he
    by_cases hc : f c = true
    · by_cases h : cur = []
      · simp [strings.fieldsAux, hc, h] at he
        exact ih [] e (by simp) he
      · simp [strings.fieldsAux, hc, h] at he
        rcases he with rfl | he
        · exact ⟨by simpa using h, by simpa using hcur⟩
        · exact ih [] e (by simp) he
    · have hc2 : f c = false := by simpa using hc
      simp [strings.fieldsAux, hc2] at he
      apply ih (c :: cur) e _ he
      intro x hx
      rcases List.mem_cons.mp hx with rfl | hx
      · exact hc2
      · exact hcur x hx

theorem segments_isElem (s : Str) (e : Str) (he : e ∈ segments s) : IsElem e := by
  obtain ⟨h1, h2⟩ := mem_fieldsAux (· == '/') s [] e (by simp) he
  refine ⟨h1, ?_⟩
  intro h
  have := h2 '/' h
  simp at this

theorem bufOf_zero_eq_slash (stack : List Str) (hst : ∀ e ∈ stack, IsElem e)
    (h : (bufOf true 0 stack).length = 1) : stack = [] := by
  rcases stack with _ | ⟨e, s⟩
  · rfl
  · have := bufOf_length_gt true 0 e s (hst e (by simp)).1
    simp [dotsBuf] at this
    omega

theorem bufOf_zero_eq_nil (stack : List Str) (hst : ∀ e ∈ stack, IsElem e)
    (h : (bufOf false 0 stack).length = 0) : stack = [] := by
  rcases stack with _ | ⟨e, s⟩
  · rfl
  · have := bufOf_length_gt false 0 e s (hst e (by simp)).1
    omega

theorem segments_bufOf (rooted : Bool) (stack : List Str) (hst : ∀ e ∈ stack, IsElem e) :
    segments (bufOf rooted 0 stack).reverse = stack.reverse := by
  induction stack with
  | nil => cases rooted <;> rfl
  | cons e s ih =>
    have he : IsElem e := hst e (by simp)
    have hs : ∀ x ∈ s, IsElem x := fun x hx => hst x (by simp [hx])
    simp only [bufOf, pushElem]
    split
    · simp only [List.reverse_append, List.reverse_reverse, List.reverse_cons,
        List.append_assoc, List.singleton_append]
      rw [segments_append, ih hs, segments_elem e he]
    · rename_i hc
      cases rooted with
      | true =>
        simp at hc
        have := bufOf_zero_eq_slash s hs hc
        subst this
        simp [bufOf, dotsBuf, segments_slash, segments_elem e he]
      | false =>
        simp at hc
        have := bufOf_zero_eq_nil s hs (by simp [hc])
        subst this
        simp [bufOf, dotsBuf, segments_elem e he]

theorem elemRun_append (rooted : Bool) (st : List Str × Nat) (a b : List Str) :
    elemRun rooted st (a ++ b) = elemRun rooted (elemRun rooted st a) b := by
  simp [elemRun, List.foldl_append]

theorem elemRun_noDotDot (rooted : Bool) (es : List Str) (h : ['.', '.'] ∉ es) :
    ∀ (s : List Str) (k : Nat),
      elemRun rooted (s, k) es = ((es.filter (· ≠ ['.'])).reverse ++ s, k) := by
  induction es with
  | nil => intro s k; rfl
  | cons e es ih =>
    intro s k
    have he : e ≠ ['.', '.'] := by intro h2; apply h; simp [h2]
    have hes : ['.', '.'] ∉ es := by intro h2; apply h; simp [h2]
    rw [elemRun_cons]
    by_cases hd : e = ['.']
    · subst hd
      have : elemStep rooted (s, k) ['.'] = (s, k) := by simp [elemStep]
      rw [this, ih hes]
      simp
    · have : elemStep rooted (s, k) e = (e :: s, k) := by simp [elemStep, hd, he]
      rw [this, ih hes]
      simp [List.filter_cons, hd]

theorem elemRun_rooted (es : List Str) :
    ∀ (s : List Str), (∀ e ∈ s, IsElem e ∧ e ≠ ['.'] ∧ e ≠ ['.', '.']) →
      (∀ e ∈ es, IsElem e) →
      (elemRun true (s, 0) es).2 = 0 ∧
        ∀ e ∈ (elemRun true (s, 0) es).1, IsElem e ∧ e ≠ ['.'] ∧ e ≠ ['.', '.'] := by
  induction es with
  | nil => intro s hs _; exact ⟨rfl, hs⟩
  | cons e es ih =>
    intro s hs hes
    have hes2 : ∀ x ∈ es, IsElem x := fun x hx => hes x (by simp [hx])
    rw [elemRun_cons]
    by_cases hd : e = ['.']
    · have : elemStep true (s, 0) e = (s, 0) := by simp [elemStep, hd]
      rw [this]; exact ih s hs hes2
    · by_cases hdd : e = ['.', '.']
      · rcases s with _ | ⟨x, s2⟩
        · have : elemStep true ([], 0) e = ([], 0) := by simp [elemStep, hdd]
          rw [this]; exact ih [] hs hes2
        · have : elemStep true (x :: s2, 0) e = (s2, 0) := by simp [elemStep, hdd]
          rw [this]; exact ih s2 (fun y hy => hs y (by simp [hy])) hes2
      · have : elemStep true (s, 0) e = (e :: s, 0) := by simp [elemStep, hd, hdd]
        rw [this]
        apply ih (e :: s) _ hes2
        intro y hy
        rcases List.mem_cons.mp hy with rfl | hy
        · exact ⟨hes y (by simp), hd, hdd⟩
        · exact hs y hy

theorem strings_Join_pair (a b : Str) (sep : Char) : strings.Join [a, b] sep = a ++ sep :: b := rfl

theorem Join_staticDir (x : Str) :
    filepath.Join [staticDir, x]
      = finish false (elemRun false (rootStack, 0) (segments x)) := by
  have h1 : filepath.Join [staticDir, x] = path.Clean (staticDir ++ '/' :: x) := by
    simp only [filepath.Join, filepath.Clean, strings_Join_pair]
    rw [if_neg (by decide)]
  have h2 : segments staticDir = ['.'] :: rootStack.reverse := by decide
  rw [h1, Clean_unrooted _ (by simp [staticDir]) (by simp [staticDir]), segments_append, h2]
  rw [elemRun_append]
  rfl

theorem finish_rooted (s : List Str) :
    finish true (s, 0) = (bufOf true 0 s).reverse := by
  have h := bufOf_length_ge true 0 s
  have h1 : bufOf true 0 s ≠ [] := by
    intro h2; rw [h2] at h; simp [dotsBuf] at h
  simp [finish, h1]

theorem rootStack_isElem : ∀ e ∈ rootStack, IsElem e := by
  intro e he
  simp [rootStack] at he
  rcases he with rfl | rfl <;> exact ⟨by decide, by decide⟩

theorem bufOf_below (ys : List Str) (hys : ∀ e ∈ ys, IsElem e) :
    bufOf false 0 (ys ++ rootStack) ≠ [] ∧
    ∃ suffix : Str, (bufOf false 0 (ys ++ rootStack)).reverse = "web/dist".toList ++ suffix ∧
      (ys = [] → suffix = []) ∧ (ys ≠ [] → suffix.head? = some '/') := by
  induction ys with
  | nil => exact ⟨by decide, [], by decide, fun _ => rfl, fun h => absurd rfl h⟩
  | cons y ys ih =>
    obtain ⟨hne, suffix, hs, h1, h2⟩ := ih (fun e he => hys e (by simp [he]))
    have hlen : (bufOf false 0 (ys ++ rootStack)).length ≠ 0 := by
      intro h; exact hne (List.length_eq_zero.mp h)
    have hb : bufOf false 0 (y :: ys ++ rootStack)
        = y.reverse ++ '/' :: bufOf false 0 (ys ++ rootStack) := by
      show pushElem false (bufOf false 0 (ys ++ rootStack)) y = _
      simp only [pushElem]
      rw [if_pos (Or.inr ⟨trivial, hlen⟩)]
    refine ⟨by rw [hb]; simp, suffix ++ '/' :: y, ?_, by simp, ?_⟩
    · rw [hb]
      simp only [List.reverse_append, List.reverse_reverse, List.reverse_cons,
        List.append_assoc, List.singleton_append]
      rw [← List.append_assoc, ← hs]
    · intro _
      by_cases hys2 : ys = []
      · simp [h1 hys2]
      · have := h2 hys2
        rcases suffix with _ | ⟨c, t⟩
        · simp at this
        · simpa using this

theorem withinRoot_finish (ys : List Str) (hys : ∀ e ∈ ys, IsElem e)
    (hdd : ['.', '.'] ∉ ys) : withinRoot (finish false (ys ++ rootStack, 0)) := by
  obtain ⟨hne, suffix, hs, h1, h2⟩ := bufOf_below ys hys
  have hf : finish false (ys ++ rootStack, 0) = (bufOf false 0 (ys ++ rootStack)).reverse := by
    simp [finish, hne]
  rw [hf]
  constructor
  · by_cases hys2 : ys = []
    · left; rw [hs, h1 hys2]; simp
    · right
      rw [hs]
      have := h2 hys2
      rcases suffix with _ | ⟨c, t⟩
      · simp at this
      · simp at this; subst this
        exact ⟨t, by simp⟩
  · have hall : ∀ e ∈ ys ++ rootStack, IsElem e := by
      intro e he
      rcases List.mem_append.mp he with h | h
      · exact hys e h
      · exact rootStack_isElem e h
    rw [segments_bufOf false _ hall]
    intro h
    simp only [List.reverse_append, List.mem_append, List.mem_reverse] at h
    rcases h with h | h
    · revert h; decide
    · exact hdd h

theorem filter_ne_dot_isElem (es : List Str) (h : ∀ e ∈ es, IsElem e) :
    ∀ e ∈ (es.filter (· ≠ ['.'])).reverse, IsElem e := by
  intro e he
  simp only [List.mem_reverse] at he
  exact h e (List.mem_filter.mp he).1

/-- For a path without `..` element the candidate of the handler is the static root with
the elements of the path, other than `.`, appended. -/
theorem Join_staticDir_noDotDot (p : Str) (h : ['.', '.'] ∉ segments p) :
    filepath.Join [staticDir, p]
      = finish false (((segments p).filter (· ≠ ['.'])).reverse ++ rootStack, 0) := by
  rw [Join_staticDir, elemRun_noDotDot false _ h]

/-- The string `path.Clean("/" + n)`: a slash followed by elements that are neither `.`
nor `..`. -/
theorem Clean_slash (n : Str) :
    ∃ s : List Str, path.Clean ('/' :: n) = (bufOf true 0 s).reverse ∧
      (∀ e ∈ s, IsElem e ∧ e ≠ ['.'] ∧ e ≠ ['.', '.']) ∧
      s = (elemRun true ([], 0) (segments n)).1 := by
  obtain ⟨h0, hs⟩ := elemRun_rooted (segments n) [] (by simp) (segments_isElem n)
  refine ⟨(elemRun true ([], 0) (segments n)).1, ?_, hs, rfl⟩
  rw [Clean_rooted]
  have : elemRun true ([], 0) (segments n) = ((elemRun true ([], 0) (segments n)).1, 0) :=
    Prod.ext rfl h0
  rw [this, finish_rooted]

theorem filter_ne_dot_id (es : List Str) (h : ∀ e ∈ es, e ≠ ['.']) :
    es.filter (· ≠ ['.']) = es := by
  apply List.filter_eq_self.mpr
  intro e he
  simpa using h e he

theorem fullName_staticDir (n : Str) :
    ∃ s : List Str, http.Dir.fullName staticDir n = finish false (s ++ rootStack, 0) ∧
      (∀ e ∈ s, IsElem e ∧ e ≠ ['.'] ∧ e ≠ ['.', '.']) ∧
      s = (elemRun true ([], 0) (segments n)).1 := by
  obtain ⟨s, hc, hs, hdef⟩ := Clean_slash n
  refine ⟨s, ?_, hs, hdef⟩
  have hsegs : segments (path.Clean ('/' :: n)) = s.reverse := by
    rw [hc, segments_bufOf true s (fun e he => (hs e he).1)]
  have hnd : ['.', '.'] ∉ segments (path.Clean ('/' :: n)) := by
    rw [hsegs]; intro h; exact (hs _ (List.mem_reverse.mp h)).2.2 rfl
  have hfn : http.Dir.fullName staticDir n = filepath.Join [staticDir, path.Clean ('/' :: n)] := by
    simp only [http.Dir.fullName]
    rw [if_neg (by decide)]
  rw [hfn, Join_staticDir_noDotDot _ hnd, hsegs,
    filter_ne_dot_id _ (fun e he => (hs e (List.mem_reverse.mp he)).2.1)]
  simp

/-- The file server never leaves the static root: whatever name it is asked to open, the
operating-system path is the static root or lies below it. -/
theorem withinRoot_fullName (n : Str) : withinRoot (http.Dir.fullName staticDir n) := by
  obtain ⟨s, h, hs, _⟩ := fullName_staticDir n
  rw [h]
  exact withinRoot_finish s (fun e he => (hs e he).1) (fun hm => (hs _ hm).2.2 rfl)

theorem Clean_rooted_noDotDot (t : Str) (h : ['.', '.'] ∉ segments t) :
    path.Clean ('/' :: t) = (bufOf true 0 ((segments t).filter (· ≠ ['.'])).reverse).reverse := by
  rw [Clean_rooted, elemRun_noDotDot true _ h, List.append_nil, finish_rooted]

/-- For a rooted path without `..` element, the path the handler stats is the path the
file server opens. -/
theorem Join_eq_fullName (p : Str) (hp : p.head? = some '/') (h : ['.', '.'] ∉ segments p) :
    filepath.Join [staticDir, p] = http.Dir.fullName staticDir (path.Clean p) := by
  rcases p with _ | ⟨c, t⟩
  · simp at hp
  · simp at hp; subst hp
    have ht : ['.', '.'] ∉ segments t := by rwa [segments_slash] at h
    obtain ⟨s, hf, _, hdef⟩ := fullName_staticDir (path.Clean ('/' :: t))
    have hel : ∀ e ∈ ((segments t).filter (· ≠ ['.'])).reverse, IsElem e :=
      filter_ne_dot_isElem _ (segments_isElem t)
    have hseg : segments (path.Clean ('/' :: t)) = (segments t).filter (· ≠ ['.']) := by
      rw [Clean_rooted_noDotDot t ht, segments_bufOf true _ hel, List.reverse_reverse]
    have hnd : ['.', '.'] ∉ (segments t).filter (· ≠ ['.']) :=
      fun hm => ht (List.mem_filter.mp hm).1
    rw [hf, hdef, hseg, elemRun_noDotDot true _ hnd, Join_staticDir_noDotDot _ h,
      segments_slash]
    simp [List.filter_filter]


theorem climbsAbove_of_noDotDot (es : List Str) (h : ['.', '.'] ∉ es) :
    ∀ depth, climbsAbove es depth = false := by
  induction es with
  | nil => intro depth; rfl
  | cons e es ih =>
    intro depth
    have he : e ≠ ['.', '.'] := by intro h2; apply h; simp [h2]
    have hes : ['.', '.'] ∉ es := by intro h2; apply h; simp [h2]
    by_cases hd : e = ['.']
    · simp only [climbsAbove, hd, if_true]; exact ih hes depth
    · simp only [climbsAbove, if_neg hd, if_neg he]; exact ih hes (depth + 1)

/-- While the `..` elements do not climb above the starting directory, cleaning acts on the
elements above it only: whatever lies below on the stack is left alone. -/
theorem elemRun_noClimb (rooted : Bool) (es : List Str) :
    ∀ (top below : List Str) (k : Nat), climbsAbove es top.length = false →
      elemRun rooted (top ++ below, k) es
        = ((elemRun true (top, 0) es).1 ++ below, k) := by
  induction es with
  | nil => intro top below k _; rfl
  | cons e es ih =>
    intro top below k h
    rw [elemRun_cons, elemRun_cons]
    by_cases hd : e = ['.']
    · have h1 : ∀ r st, elemStep r st e = st := by intro r st; simp [elemStep, hd]
      rw [h1, h1]
      apply ih
      simpa [climbsAbove, hd] using h
    · by_cases hdd : e = ['.', '.']
      · rcases top with _ | ⟨x, top⟩
        · simp [climbsAbove, hdd] at h
        · have h1 : elemStep rooted (x :: top ++ below, k) e = (top ++ below, k) := by
            simp [elemStep, hdd]
          have h2 : elemStep true (x :: top, 0) e = (top, 0) := by simp [elemStep, hdd]
          rw [h1, h2]
          apply ih
          simpa [climbsAbove, hdd] using h
      · have h1 : elemStep rooted (top ++ below, k) e = ((e :: top) ++ below, k) := by
          simp [elemStep, hd, hdd]
        have h2 : elemStep true (top, 0) e = (e :: top, 0) := by simp [elemStep, hd, hdd]
        rw [h1, h2]
        apply ih
        simpa [climbsAbove, hd, hdd] using h

/-- For a path whose `..` elements do not climb above the static root, the candidate of
the handler is the static root with the cleaned elements of the path appended. -/
theorem Join_staticDir_noClimb (p : Str) (h : climbsAbove (segments p) 0 = false) :
    filepath.Join [staticDir, p]
      = finish false ((elemRun true ([], 0) (segments p)).1 ++ rootStack, 0) := by
  rw [Join_staticDir]
  have := elemRun_noClimb false (segments p) [] rootStack 0 h
  simpa using congrArg (finish false) this

theorem withinRoot_Join_noClimb (p : Str) (h : climbsAbove (segments p) 0 = false) :
    withinRoot (filepath.Join [staticDir, p]) := by
  rw [Join_staticDir_noClimb p h]
  obtain ⟨_, hs⟩ := elemRun_rooted (segments p) [] (by simp) (segments_isElem p)
  exact withinRoot_finish _ (fun e he => (hs e he).1) (fun hm => (hs _ hm).2.2 rfl)

/-- For a path whose `..` elements do not climb above the static root, the path the handler
stats is the path the file server opens: `t` is the path without its leading slash when it
has one. -/
theorem Join_eq_fullName_noClimb (p t : Str) (hseg : segments t = segments p)
    (h : climbsAbove (segments p) 0 = false) :
    filepath.Join [staticDir, p] = http.Dir.fullName staticDir (path.Clean ('/' :: t)) := by
  obtain ⟨h0, hs⟩ := elemRun_rooted (segments p) [] (by simp) (segments_isElem p)
  obtain ⟨s, hf, _, hdef⟩ := fullName_staticDir (path.Clean ('/' :: t))
  have hclean : path.Clean ('/' :: t)
      = (bufOf true 0 (elemRun true ([], 0) (segments p)).1).reverse := by
    rw [Clean_rooted, hseg]
    have : elemRun true ([], 0) (segments p) = ((elemRun true ([], 0) (segments p)).1, 0) :=
      Prod.ext rfl h0
    rw [this, finish_rooted]
  have hsegc : segments (path.Clean ('/' :: t))
      = (elemRun true ([], 0) (segments p)).1.reverse := by
    rw [hclean, segments_bufOf true _ (fun e he => (hs e he).1)]
  have hnd : ['.', '.'] ∉ (elemRun true ([], 0) (segments p)).1.reverse :=
    fun hm => (hs _ (List.mem_reverse.mp hm)).2.2 rfl
  rw [hf, hdef, hsegc, elemRun_noDotDot true _ hnd, Join_staticDir_noClimb p h,
    filter_ne_dot_id _ (fun e he => (hs e (List.mem_reverse.mp he)).2.1)]
  simp

theorem segments_upath (p : Str) :
    ∃ t, http.upath p = '/' :: t ∧ segments t = segments p := by
  unfold http.upath
  by_cases hp : strings.HasPrefix p ['/'] = true
  · rw [if_pos hp]
    rcases p with _ | ⟨c, t⟩
    · simp [strings.HasPrefix, List.isPrefixOf] at hp
    · have hc : c = '/' := by
        simp only [strings.HasPrefix, List.isPrefixOf, Bool.and_true, beq_iff_eq] at hp
        exact hp.symm
      subst hc
      exact ⟨t, rfl, (segments_slash t).symm⟩
  · rw [if_neg hp]
    exact ⟨p, rfl, rfl⟩

/-- The file server opens the candidate of the handler, for every path whose `..` elements
do not climb above the static root. -/
theorem fullName_upath (p : Str) (h : climbsAbove (segments p) 0 = false) :
    http.Dir.fullName staticDir (path.Clean (http.upath p)) = filepath.Join [staticDir, p] := by
  obtain ⟨t, ht, hseg⟩ := segments_upath p
  rw [ht, Join_eq_fullName_noClimb p t hseg h]

/-! ## The handler's decision -/

theorem isDir_eq (p : Str) (fs : FS) :
    isDir p fs = (decide (fs.stat p = .ok ⟨true⟩), fs) := by
  unfold isDir os.Stat
  rcases fs.stat p with e | ⟨⟨_ | _⟩⟩ <;> simp

theorem route_eq (r : http.Request) (fs : FS) :
    route r fs
      = (if fs.stat (candidate r) = .error .ENOENT ∨ fs.stat (candidate r) = .ok ⟨true⟩
         then Route.fallback indexFile else Route.fileServer r, fs) := by
  unfold route fallbackCond candidate
  simp only [os.Stat, isDir_eq]
  generalize fs.stat (filepath.Join [staticDir, r.Path]) = st
  rcases st with e | ⟨⟨_ | _⟩⟩
  · cases e <;> simp [errOf, os.IsNotExist, indexFile]
  · simp [errOf, os.IsNotExist, indexFile]
  · simp [errOf, os.IsNotExist, indexFile]

theorem handler_eq (cond : http.Conditions) (r : http.Request) (fs : FS) :
    handler cond r fs
      = (if fs.stat (candidate r) = .error .ENOENT ∨ fs.stat (candidate r) = .ok ⟨true⟩
         then http.serveFileResponse cond r indexFile fs
         else http.fileHandlerResponse cond staticDir r fs, fs) := by
  unfold handler
  rw [route_eq]
  by_cases h : fs.stat (candidate r) = .error .ENOENT ∨ fs.stat (candidate r) = .ok ⟨true⟩
  · simp only [if_pos h, http.ServeFile]
  · simp only [if_neg h, http.FileServer]

/-! ## Path resolution -/

theorem walk_append (root : Node) (a c : List Str) :
    ∀ loc : Loc,
      Node.walk root loc (a ++ c)
        = match Node.walk root loc a with
          | .error e => .error e
          | .ok (.done l) => Node.walk root l c
          | .ok (.atLink d t rest) => .ok (.atLink d t (rest ++ c)) := by
  induction a with
  | nil => intro loc; rfl
  | cons x xs ih =>
    intro loc
    simp only [List.cons_append, Node.walk]
    rcases Node.step root loc x with e | loc1
    · rfl
    · simp only
      cases hcur : Node.current root loc1 <;> first | exact ih loc1 | rfl

theorem follow_append (root : Node) (c : List Str) :
    ∀ (budget : Nat) (loc : Loc) (a : List Str),
      Node.follow root budget loc (a ++ c)
        = match Node.follow root budget loc a with
          | .error e => .error e
          | .ok (b, l) => Node.follow root b l c := by
  intro budget
  induction budget with
  | zero =>
    intro loc a
    simp only [Node.follow, walk_append]
    rcases Node.walk root loc a with e | w
    · rfl
    · cases w with
      | done l => simp only [Node.follow]
      | atLink d t rest => rfl
  | succ b ih =>
    intro loc a
    simp only [Node.follow, walk_append]
    rcases Node.walk root loc a with e | w
    · rfl
    · cases w with
      | done l => simp only [Node.follow]
      | atLink d t rest =>
        simp only
        by_cases ht : t = []
        · simp [ht]
        · simp only [if_neg ht, ← List.append_assoc]
          exact ih _ _

theorem walk_dot (root : Node) (loc : Loc) (c : Str) (cs : List Str) :
    Node.walk root loc (['.'] :: c :: cs) = Node.walk root loc (c :: cs) := by
  cases hcur : Node.current root loc <;> simp [Node.walk, Node.step, hcur]

theorem follow_dot (root : Node) (budget : Nat) (loc : Loc) (c : Str) (cs : List Str) :
    Node.follow root budget loc (['.'] :: c :: cs) = Node.follow root budget loc (c :: cs) := by
  cases budget <;> simp only [Node.follow, walk_dot]

theorem follow_budget_le (root : Node) :
    ∀ (budget : Nat) (loc : Loc) (cs : List Str) (b : Nat) (l : Loc),
      Node.follow root budget loc cs = .ok (b, l) → b ≤ budget := by
  intro budget
  induction budget with
  | zero =>
    intro loc cs b l h
    simp only [Node.follow] at h
    rcases hw : Node.walk root loc cs with e | w
    · simp [hw] at h
    · cases w with
      | done l1 => simp [hw] at h; omega
      | atLink d t rest => simp [hw] at h
  | succ n ih =>
    intro loc cs b l h
    simp only [Node.follow] at h
    rcases hw : Node.walk root loc cs with e | w
    · simp [hw] at h
    · cases w with
      | done l1 => simp [hw] at h; omega
      | atLink d t rest =>
        simp only [hw] at h
        by_cases ht : t = []
        · simp [ht] at h
        · simp only [if_neg ht] at h
          have := ih _ _ _ _ h
          omega

/-- A resolution that uses none of its link budget follows no symbolic link. -/
theorem walk_of_follow_same (root : Node) (budget : Nat) (loc : Loc) (cs : List Str) (l : Loc)
    (h : Node.follow root budget loc cs = .ok (budget, l)) :
    Node.walk root loc cs = .ok (.done l) := by
  cases budget with
  | zero =>
    simp only [Node.follow] at h
    rcases hw : Node.walk root loc cs with e | w
    · simp [hw] at h
    · cases w with
      | done l1 => simp [hw] at h; rw [h]
      | atLink d t rest => simp [hw] at h
  | succ n =>
    simp only [Node.follow] at h
    rcases hw : Node.walk root loc cs with e | w
    · simp [hw] at h
    · cases w with
      | done l1 => simp [hw] at h; rw [h]
      | atLink d t rest =>
        simp only [hw] at h
        by_cases ht : t = []
        · simp [ht] at h
        · simp only [if_neg ht] at h
          have := follow_budget_le root _ _ _ _ _ h
          omega

/-- Without `..` and without symbolic links a walk only goes down: the place reached lies
at or below the place it started from. -/
theorem walk_done_suffix (root : Node) (cs : List Str) (hdd : ['.', '.'] ∉ cs) :
    ∀ (loc l : Loc), Node.walk root loc cs = .ok (.done l) → loc <:+ l := by
  induction cs with
  | nil =>
    intro loc l h
    simp [Node.walk] at h
    rw [h]
  | cons c cs ih =>
    intro loc l h
    have hc : c ≠ ['.', '.'] := by intro h2; apply hdd; simp [h2]
    have hcs : ['.', '.'] ∉ cs := by intro h2; apply hdd; simp [h2]
    simp only [Node.walk] at h
    rcases hs : Node.step root loc c with e | loc1
    · simp [hs] at h
    · simp only [hs] at h
      have hsuf : loc <:+ loc1 := by
        unfold Node.step at hs
        cases hcur : Node.current root loc with
        | file rd ct => simp [hcur] at hs
        | link t => simp [hcur] at hs
        | locked => simp [hcur] at hs
        | dir es =>
          simp only [hcur, if_neg hc] at hs
          by_cases hd : c = ['.']
          · simp [hd] at hs; rw [hs]
          · simp only [if_neg hd] at hs
            by_cases hl : NAME_MAX < byteLen c
            · simp [hl] at hs
            · simp only [if_neg hl] at hs
              rcases hlk : Node.lookup c es with _ | n
              · simp [hlk] at hs
              · simp [hlk] at hs
                rw [← hs]
                exact List.suffix_cons _ _
      cases hcur1 : Node.current root loc1 with
      | link t => simp [hcur1] at h
      | file rd ct => simp only [hcur1] at h; exact hsuf.trans (ih hcs _ _ h)
      | dir es => simp only [hcur1] at h; exact hsuf.trans (ih hcs _ _ h)
      | locked => simp only [hcur1] at h; exact hsuf.trans (ih hcs _ _ h)

theorem start_relative (fs : FS) (q : Str) (hr : q.head? ≠ some '/') :
    fs.start q = fs.start staticDir := by
  have hs : staticDir.head? ≠ some '/' := by decide
  unfold FS.start
  rw [if_neg hr, if_neg hs]

theorem locate_staticDir (fs : FS) : fs.locate staticDir = rootState fs := by
  have hseg : segments staticDir = [['.'], "web".toList, "dist".toList] := by decide
  have h1 : ¬ Char.ofNat 0 ∈ staticDir := by decide
  have h2 : ¬ staticDir = [] := by decide
  have h3 : ¬ PATH_MAX ≤ byteLen staticDir := by decide
  simp only [FS.locate, rootState, if_neg h1, if_neg h2, if_neg h3, hseg, follow_dot]

/-- Resolution of a relative name whose first two elements are `web` and `dist` goes
through the static root. -/
theorem locate_below (fs : FS) (q : Str) (rest : List Str) (hq : q ≠ [])
    (hr : q.head? ≠ some '/') (hseg : segments q = "web".toList :: "dist".toList :: rest) :
    fs.locate q
      = if Char.ofNat 0 ∈ q then .error .EINVAL
        else if PATH_MAX ≤ byteLen q then .error .ENAMETOOLONG
        else
          match rootState fs with
          | .error e => .error e
          | .ok (b, loc) => Node.follow fs.root b loc rest := by
  have hseg2 : segments q = ["web".toList, "dist".toList] ++ rest := hseg
  simp only [FS.locate, rootState, if_neg hq, hseg2, start_relative fs q hr, follow_append]
  by_cases h1 : Char.ofNat 0 ∈ q
  · simp [h1]
  · by_cases h2 : PATH_MAX ≤ byteLen q
    · simp [h1, h2]
    · simp only [if_neg h1, if_neg h2]
      rcases fs.start staticDir with e | loc
      · rfl
      · rfl

theorem stat_error_iff (fs : FS) (q : Str) (e : Errno) :
    fs.stat q = .error e ↔ fs.resolve q = .error e := by
  unfold FS.stat
  rcases fs.resolve q with e2 | n <;> simp

theorem resolve_staticDir (fs : FS) :
    fs.resolve staticDir
      = match rootState fs with
        | .error e => .error e
        | .ok (_, loc) => .ok (Node.current fs.root loc) := by
  have hlast : staticDir.getLast? ≠ some '/' := by decide
  simp only [FS.resolve, locate_staticDir]
  rcases rootState fs with e | ⟨b, loc⟩
  · rfl
  · simp [hlast]

/-! ## Properties of `serveFile` -/

theorem hasPrefix_slash (p : Str) : strings.HasPrefix p ['/'] = true ↔ p.head? = some '/' := by
  rcases p with _ | ⟨c, t⟩
  · simp [strings.HasPrefix, List.isPrefixOf]
  · simp only [strings.HasPrefix, List.isPrefixOf, List.head?_cons, Bool.and_true,
      beq_iff_eq, Option.some.injEq]
    exact eq_comm

theorem indexFile_eq : indexFile = "web/dist/index.html".toList := by decide

theorem split_indexFile :
    filepath.Split indexFile = ("web/dist/".toList, "index.html".toList) := by decide

theorem fullName_index :
    http.Dir.fullName "web/dist/".toList "index.html".toList = indexFile := by decide

theorem fullName_index_static :
    http.Dir.fullName "web/dist/".toList "index.html".toList
      = http.Dir.fullName staticDir "index.html".toList := by decide

theorem fullName_index_index_static :
    http.Dir.fullName "web/dist/".toList
        (strings.TrimSuffix "index.html".toList ['/'] ++ http.indexPage)
      = http.Dir.fullName staticDir "index.html/index.html".toList := by decide

theorem upath_ne_nil (p : Str) : http.upath p ≠ [] := by
  unfold http.upath
  by_cases hp : strings.HasPrefix p ['/'] = true
  · rw [if_pos hp]
    intro h
    rw [h] at hp
    simp [strings.HasPrefix, List.isPrefixOf] at hp
  · rw [if_neg hp]; simp

theorem upath_rooted (p : Str) (hp : strings.HasPrefix p ['/'] = true) :
    http.upath p = p := by
  simp [http.upath, hp]

theorem Dir_Open_ok (d n : Str) (fs : FS) (f : File) (h : http.Dir.Open d n fs = .ok f) :
    f.name = http.Dir.fullName d n ∧ fs.resolve (http.Dir.fullName d n) = .ok f.node ∧
      ∀ c, f.node ≠ .file false c := by
  unfold http.Dir.Open FS.openRead at h
  rcases hr : fs.resolve (http.Dir.fullName d n) with e | node
  · simp [hr] at h
  · rcases node with ⟨rd, c⟩ | es | _ | t
    · cases rd
      · simp [hr] at h
      · simp [hr] at h; subst h; simp
    · simp [hr] at h; subst h; simp
    · simp [hr] at h
    · simp [hr] at h; subst h; simp

theorem Dir_Open_file (d n : Str) (fs : FS) (c : Str)
    (h : fs.resolve (http.Dir.fullName d n) = .ok (.file true c)) :
    http.Dir.Open d n fs = .ok ⟨http.Dir.fullName d n, .file true c⟩ := by
  simp [http.Dir.Open, FS.openRead, h]

theorem mapOpenErrorLoop_cases (e : Errno) (fs : FS) (parts : List Str) :
    ∀ done, http.mapOpenErrorLoop e fs done parts = e ∨
      http.mapOpenErrorLoop e fs done parts = .ENOENT := by
  induction parts with
  | nil => intro done; left; rfl
  | cons part rest ih =>
    intro done
    simp only [http.mapOpenErrorLoop]
    by_cases hp : part = []
    · rw [if_pos hp]; exact ih _
    · rw [if_neg hp]
      rcases fs.stat (strings.Join (done ++ [part]) '/') with e2 | fi
      · left; rfl
      · simp only
        by_cases hd : fi.IsDir = false
        · rw [if_pos hd]; right; rfl
        · rw [if_neg hd]; exact ih _

theorem mapOpenError_cases (e : Errno) (name : Str) (fs : FS) :
    http.mapOpenError e name fs = e ∨ http.mapOpenError e name fs = .ENOENT := by
  unfold http.mapOpenError
  split
  · left; rfl
  · exact mapOpenErrorLoop_cases e fs _ _

/-- When the name cannot be resolved, `http.Dir.Open` fails, with the error of the
resolution or with not-exist. -/
theorem Dir_Open_error (d n : Str) (fs : FS) (e : Errno)
    (h : fs.resolve (http.Dir.fullName d n) = .error e) :
    http.Dir.Open d n fs = .error e ∨ http.Dir.Open d n fs = .error .ENOENT := by
  simp only [http.Dir.Open, FS.openRead, h]
  rcases mapOpenError_cases e (http.Dir.fullName d n) fs with h1 | h1
  · left; rw [h1]
  · right; rw [h1]

theorem serveContent_plain (cond : http.Conditions) (r : http.Request) (f : File) (c : Str)
    (hc : http.carriesConditions r = false) (hm : r.Method ≠ "HEAD".toList) :
    http.serveContent cond r f c = ⟨200, none, .file f.name c⟩ := by
  have hm2 : ¬ r.Method = ['H', 'E', 'A', 'D'] := hm
  simp [http.serveContent, hc, hm2, http.StatusOK]

theorem serveContent_source (cond : http.Conditions) (r : http.Request) (f : File)
    (c nm : Str) (h : (http.serveContent cond r f c).body.source = some nm) : nm = f.name := by
  unfold http.serveContent at h
  split at h
  · simp [http.Body.source] at h
  · simp [http.Body.source] at h
  · simp [http.serveError, http.Body.source] at h
  · split at h
    · split at h
      · simp [http.Body.source] at h
      · simp [http.Body.source] at h; exact h.symm
    · split at h
      · simp [http.Body.source] at h
      · simp [http.Body.source] at h; exact h.symm

theorem serveContent_file (cond : http.Conditions) (r : http.Request) (f : File)
    (c nm c2 : Str) (h : (http.serveContent cond r f c).body = .file nm c2) : c2 = c := by
  unfold http.serveContent at h
  split at h
  · simp at h
  · simp at h
  · simp [http.serveError] at h
  · split at h
    · split at h
      · simp at h
      · simp at h; exact h.2.symm
    · split at h
      · simp at h
      · simp at h

theorem serveContent_ranges (cond : http.Conditions) (r : http.Request) (f : File)
    (c nm : Str) (parts : List Str)
    (h : (http.serveContent cond r f c).body = .ranges nm parts) :
    ∀ part ∈ parts, ∃ start len, part = (c.drop start).take len := by
  unfold http.serveContent at h
  split at h
  · simp at h
  · simp at h
  · simp [http.serveError] at h
  · split at h
    · split at h
      · simp at h
      · simp at h
    · split at h
      · simp at h
      · simp at h
        intro part hp
        rw [← h.2] at hp
        obtain ⟨ra, _, hra⟩ := List.mem_map.mp hp
        exact ⟨ra.1, ra.2, hra.symm⟩

/-- Whatever `serveOpened` sends from an opened file was read from the path it was opened
under, and is the contents of the readable regular file there. -/
theorem serveOpened_readFrom (cond : http.Conditions) (r : http.Request) (d n : Str) (fs : FS)
    (f : File) (nm : Str) (ho : http.Dir.Open d n fs = .ok f)
    (h : (http.serveOpened cond r f).body.source = some nm) :
    nm = http.Dir.fullName d n ∧ readFrom fs (http.serveOpened cond r f).body nm := by
  obtain ⟨h1, h2, h3⟩ := Dir_Open_ok d n fs f ho
  unfold http.serveOpened at h ⊢
  rcases hn : f.node with ⟨rd, c⟩ | es | _ | t
  · simp only [hn] at h ⊢
    have hnm : nm = http.Dir.fullName d n := by rw [serveContent_source cond r f c nm h, h1]
    have hrd : rd = true := by
      cases rd
      · exact absurd hn (h3 c)
      · rfl
    subst hrd
    refine ⟨hnm, ⟨_, by rw [hnm]; exact h2⟩, ?_, ?_⟩
    · intro c2 hb
      rw [serveContent_file cond r f c nm c2 hb, hnm, h2, hn]
    · intro parts hb
      exact ⟨c, by rw [hnm, h2, hn], serveContent_ranges cond r f c nm parts hb⟩
  · simp only [hn] at h ⊢
    split at h
    · simp [http.Body.source] at h
    · simp only [http.dirList, http.Body.source, Option.some.injEq] at h
      refine ⟨by rw [← h, h1], ⟨_, by rw [← h, h1]; exact h2⟩, ?_, ?_⟩
      · intro c hb; rw [if_neg (by assumption)] at hb; simp [http.dirList] at hb
      · intro parts hb; rw [if_neg (by assumption)] at hb; simp [http.dirList] at hb
  · simp [hn, http.serveError, http.Body.source] at h
  · simp [hn, http.serveError, http.Body.source] at h

theorem serveEntry_readFrom (cond : http.Conditions) (r : http.Request) (root name : Str)
    (fs : FS) (f : File) (nm : Str) (ho : http.Dir.Open root name fs = .ok f)
    (h : (http.serveEntry cond r root name f fs).body.source = some nm) :
    (nm = http.Dir.fullName root name ∨
      nm = http.Dir.fullName root (strings.TrimSuffix name ['/'] ++ http.indexPage)) ∧
      readFrom fs (http.serveEntry cond r root name f fs).body nm := by
  unfold http.serveEntry at h ⊢
  split at h
  · rename_i hdir
    rw [if_pos hdir]
    split at h
    · simp [http.localRedirect, http.Body.source] at h
    · rename_i hsl
      rw [if_neg hsl]
      rcases ho2 : http.Dir.Open root
          (strings.TrimSuffix name ['/'] ++ http.indexPage) fs with e | ff
      · simp only [ho2] at h ⊢
        obtain ⟨h1, h2⟩ := serveOpened_readFrom cond r root name fs f nm ho h
        exact ⟨Or.inl h1, h2⟩
      · simp only [ho2] at h ⊢
        obtain ⟨h1, h2⟩ := serveOpened_readFrom cond r root _ fs ff nm ho2 h
        exact ⟨Or.inr h1, h2⟩
  · rename_i hdir
    rw [if_neg hdir]
    obtain ⟨h1, h2⟩ := serveOpened_readFrom cond r root name fs f nm ho h
    exact ⟨Or.inl h1, h2⟩

/-- Whatever `serveFile` sends as file bytes or as a listing was read from a path that
`http.Dir(root)` opened: the named file or the `index.html` of the named directory. -/
theorem serveFile_readFrom (cond : http.Conditions) (r : http.Request) (root name : Str)
    (redirect : Bool) (fs : FS) (resp : http.Response) (nm : Str)
    (hr : http.serveFile cond r root name redirect fs = some resp)
    (h : resp.body.source = some nm) :
    (nm = http.Dir.fullName root name ∨
      nm = http.Dir.fullName root (strings.TrimSuffix name ['/'] ++ http.indexPage)) ∧
      readFrom fs resp.body nm := by
  unfold http.serveFile at hr
  split at hr
  · simp at hr; subst hr; simp [http.localRedirect, http.Body.source] at h
  · rcases ho : http.Dir.Open root name fs with e | f
    · simp [ho] at hr; subst hr; simp [http.serveError, http.Body.source] at h
    · simp only [ho] at hr
      split at hr
      · split at hr
        · simp at hr
        · split at hr
          · split at hr
            · simp at hr; subst hr; simp [http.localRedirect, http.Body.source] at h
            · simp at hr; subst hr
              exact serveEntry_readFrom cond r root name fs f nm ho h
          · split at hr
            · split at hr
              · simp at hr; subst hr; simp [http.serveError, http.Body.source] at h
              · simp at hr; subst hr; simp [http.localRedirect, http.Body.source] at h
            · simp at hr; subst hr
              exact serveEntry_readFrom cond r root name fs f nm ho h
      · simp at hr; subst hr
        exact serveEntry_readFrom cond r root name fs f nm ho h

/-- A readable regular file is handed to `serveContent` under the path it was opened at,
unless the URL path ends in `/index.html` or, for the file server, in a slash. -/
theorem serveFile_regular (cond : http.Conditions) (r : http.Request) (root name : Str)
    (redirect : Bool) (fs : FS) (c : Str)
    (hsuf : strings.HasSuffix r.Path http.indexPage = false)
    (hres : fs.resolve (http.Dir.fullName root name) = .ok (.file true c))
    (hne : redirect = true → r.Path ≠ [])
    (hslash : redirect = true → r.Path.getLast? ≠ some '/') :
    http.serveFile cond r root name redirect fs
      = some (http.serveContent cond r ⟨http.Dir.fullName root name, .file true c⟩ c) := by
  have hentry : http.serveEntry cond r root name ⟨http.Dir.fullName root name, .file true c⟩ fs
      = http.serveContent cond r ⟨http.Dir.fullName root name, .file true c⟩ c := by
    simp [http.serveEntry, http.serveOpened, Node.isDirectory]
  unfold http.serveFile
  rw [if_neg (by simp [hsuf]), Dir_Open_file root name fs c hres]
  simp only [Node.isDirectory, hentry]
  by_cases hrd : redirect = true
  · rw [if_pos hrd]
    rcases hl : r.Path.getLast? with _ | last
    · exact absurd (List.getLast?_eq_none_iff.mp hl) (hne hrd)
    · have hls : last ≠ '/' := by
        intro h; apply hslash hrd; rw [hl, h]
      simp [hls]
  · rw [if_neg hrd]

/-- When the name cannot be opened, `serveFile` answers with the status of the error,
unless the URL path ends in `/index.html`. -/
theorem serveFile_error (cond : http.Conditions) (r : http.Request) (root name : Str)
    (redirect : Bool) (fs : FS) (e : Errno)
    (hsuf : strings.HasSuffix r.Path http.indexPage = false)
    (ho : http.Dir.Open root name fs = .error e) :
    http.serveFile cond r root name redirect fs
      = some (http.serveError (http.toHTTPError e).1 (http.toHTTPError e).2) := by
  unfold http.serveFile
  rw [if_neg (by simp [hsuf]), ho]

/-- `serveFile` panics only when it is to redirect and the URL path is empty. -/
theorem serveFile_returns (cond : http.Conditions) (r : http.Request) (root name : Str)
    (redirect : Bool) (fs : FS) (h : redirect = false ∨ r.Path ≠ []) :
    ∃ resp, http.serveFile cond r root name redirect fs = some resp := by
  unfold http.serveFile
  split
  · exact ⟨_, rfl⟩
  · rcases http.Dir.Open root name fs with e | f
    · exact ⟨_, rfl⟩
    · simp only
      split
      · rename_i hrd
        rcases hl : r.Path.getLast? with _ | last
        · rcases h with h | h
          · rw [h] at hrd; simp at hrd
          · exact absurd (List.getLast?_eq_none_iff.mp hl) h
        · simp only
          split
          · split <;> exact ⟨_, rfl⟩
          · split
            · split <;> exact ⟨_, rfl⟩
            · exact ⟨_, rfl⟩
      · exact ⟨_, rfl⟩

/-- The handler returns a response for every request: it never panics. -/
theorem handler_returns (cond : http.Conditions) (r : http.Request) (fs : FS) :
    ∃ resp, (handler cond r fs).1 = some resp := by
  rw [handler_eq]
  split
  · simp only [http.serveFileResponse]
    split
    · exact ⟨_, rfl⟩
    · exact serveFile_returns _ _ _ _ _ _ (Or.inl rfl)
  · exact serveFile_returns _ _ _ _ _ _ (Or.inr (upath_ne_nil _))

/-! ## Resolution of the paths the handler opens -/

theorem finish_below (ys : List Str) (hys : ∀ e ∈ ys, IsElem e) :
    finish false (ys ++ rootStack, 0) ≠ [] ∧
    (finish false (ys ++ rootStack, 0)).head? ≠ some '/' ∧
    segments (finish false (ys ++ rootStack, 0))
      = "web".toList :: "dist".toList :: ys.reverse := by
  obtain ⟨hne, suffix, hs, _, _⟩ := bufOf_below ys hys
  have hf : finish false (ys ++ rootStack, 0) = (bufOf false 0 (ys ++ rootStack)).reverse := by
    simp [finish, hne]
  have hall : ∀ e ∈ ys ++ rootStack, IsElem e := by
    intro e he
    rcases List.mem_append.mp he with h | h
    · exact hys e h
    · exact rootStack_isElem e h
  refine ⟨?_, ?_, ?_⟩
  · rw [hf]; simpa using hne
  · rw [hf, hs]; simp
  · rw [hf, segments_bufOf false _ hall]
    simp [rootStack]

/-- The name `http.Dir(staticDir)` opens is resolved through the static root, along
elements none of which is `..`. -/
theorem locate_fullName (fs : FS) (n : Str) :
    ∃ rest : List Str, ['.', '.'] ∉ rest ∧
      fs.locate (http.Dir.fullName staticDir n)
        = if Char.ofNat 0 ∈ http.Dir.fullName staticDir n then .error .EINVAL
          else if PATH_MAX ≤ byteLen (http.Dir.fullName staticDir n) then .error .ENAMETOOLONG
          else
            match rootState fs with
            | .error e => .error e
            | .ok (b, loc) => Node.follow fs.root b loc rest := by
  obtain ⟨s, hf, hs, _⟩ := fullName_staticDir n
  obtain ⟨h1, h2, h3⟩ := finish_below s (fun e he => (hs e he).1)
  refine ⟨s.reverse, ?_, ?_⟩
  · intro hm
    exact (hs _ (List.mem_reverse.mp hm)).2.2 rfl
  · rw [hf]
    exact locate_below fs _ s.reverse h1 h2 h3

theorem rootState_of_resolve (fs : FS) (n : Node) (h : fs.resolve staticDir = .ok n) :
    ∃ b loc, rootState fs = .ok (b, loc) ∧ Node.current fs.root loc = n := by
  rw [resolve_staticDir] at h
  rcases hr : rootState fs with e | ⟨b, loc⟩
  · rw [hr] at h; simp at h
  · rw [hr] at h
    simp at h
    exact ⟨b, loc, rfl, h⟩

theorem rootState_error (fs : FS) (e : Errno) (h : fs.stat staticDir = .error e) :
    rootState fs = .error e := by
  rw [stat_error_iff, resolve_staticDir] at h
  rcases hr : rootState fs with e2 | ⟨b, loc⟩
  · rw [hr] at h; simp at h; rw [h]
  · rw [hr] at h; simp at h

theorem resolve_error_of_locate (fs : FS) (q : Str) (e : Errno)
    (h : fs.locate q = .error e) : fs.resolve q = .error e := by
  simp [FS.resolve, h]

/-- When the static root cannot be resolved, nothing `http.Dir(staticDir)` opens can be:
the name is invalid, too long, or fails as the static root does. -/
theorem resolve_fullName_error (fs : FS) (n : Str) (e : Errno)
    (h : fs.stat staticDir = .error e) :
    fs.resolve (http.Dir.fullName staticDir n) = .error .EINVAL ∨
    fs.resolve (http.Dir.fullName staticDir n) = .error .ENAMETOOLONG ∨
    fs.resolve (http.Dir.fullName staticDir n) = .error e := by
  obtain ⟨rest, _, hl⟩ := locate_fullName fs n
  rw [rootState_error fs e h] at hl
  by_cases h1 : Char.ofNat 0 ∈ http.Dir.fullName staticDir n
  · left; apply resolve_error_of_locate; rw [hl, if_pos h1]
  · by_cases h2 : PATH_MAX ≤ byteLen (http.Dir.fullName staticDir n)
    · right; left; apply resolve_error_of_locate; rw [hl, if_neg h1, if_pos h2]
    · right; right; apply resolve_error_of_locate; rw [hl, if_neg h1, if_neg h2]

/-- When the static root cannot be resolved, `index.html` under it fails in the same way. -/
theorem stat_indexFile_error (fs : FS) (e : Errno) (h : fs.stat staticDir = .error e) :
    fs.stat indexFile = .error e := by
  have hfi : http.Dir.fullName staticDir "index.html".toList = indexFile := by decide
  obtain ⟨rest, _, hl⟩ := locate_fullName fs "index.html".toList
  rw [hfi, rootState_error fs e h] at hl
  have h1 : ¬ Char.ofNat 0 ∈ indexFile := by decide
  have h2 : ¬ PATH_MAX ≤ byteLen indexFile := by decide
  rw [if_neg h1, if_neg h2] at hl
  exact (stat_error_iff fs _ _).mpr (resolve_error_of_locate fs _ _ hl)

theorem walk_child (root : Node) (loc : Loc) (es : List (Str × Node)) (name : Str)
    (rest : List Str) (hcur : Node.current root loc = .dir es)
    (h1 : name ≠ ['.']) (h2 : name ≠ ['.', '.']) (hlen : ¬ NAME_MAX < byteLen name) :
    Node.walk root loc (name :: rest)
      = match Node.lookup name es with
        | none => .error .ENOENT
        | some (.link target) => .ok (.atLink loc target rest)
        | some n => Node.walk root ((name, n) :: loc) rest := by
  simp only [Node.walk, Node.step, hcur, if_neg h1, if_neg h2, if_neg hlen]
  rcases Node.lookup name es with _ | n
  · rfl
  · cases n <;> rfl

theorem follow_of_walk_error (root : Node) (budget : Nat) (loc : Loc) (cs : List Str)
    (e : Errno) (h : Node.walk root loc cs = .error e) :
    Node.follow root budget loc cs = .error e := by
  cases budget <;> simp [Node.follow, h]

theorem follow_of_walk_done (root : Node) (budget : Nat) (loc l : Loc) (cs : List Str)
    (h : Node.walk root loc cs = .ok (.done l)) :
    Node.follow root budget loc cs = .ok (budget, l) := by
  cases budget <;> simp [Node.follow, h]

/-- Resolution of `web/dist/<name>` when the static root is the directory `es` and has no
entry `name`, whatever follows the name. -/
theorem resolve_child_missing (fs : FS) (es : List (Str × Node)) (q name : Str)
    (rest : List Str)
    (hroot : fs.resolve staticDir = .ok (.dir es)) (hq : q ≠ [])
    (hr : q.head? ≠ some '/')
    (hseg : segments q = "web".toList :: "dist".toList :: name :: rest)
    (hnul : ¬ Char.ofNat 0 ∈ q) (hlong : ¬ PATH_MAX ≤ byteLen q)
    (h1 : name ≠ ['.']) (h2 : name ≠ ['.', '.']) (hlen : ¬ NAME_MAX < byteLen name)
    (hl : Node.lookup name es = none) :
    fs.resolve q = .error .ENOENT := by
  obtain ⟨b, loc, hst, hcur⟩ := rootState_of_resolve fs _ hroot
  apply resolve_error_of_locate
  rw [locate_below fs q (name :: rest) hq hr hseg, if_neg hnul, if_neg hlong, hst]
  apply follow_of_walk_error
  rw [walk_child fs.root loc es name rest hcur h1 h2 hlen, hl]

/-- Resolution of `web/dist/<name>` when the static root is the directory `es` and its
entry `name` is a regular file. -/
theorem resolve_child_file (fs : FS) (es : List (Str × Node)) (q name : Str)
    (rd : Bool) (c : Str)
    (hroot : fs.resolve staticDir = .ok (.dir es)) (hq : q ≠ [])
    (hr : q.head? ≠ some '/')
    (hseg : segments q = ["web".toList, "dist".toList, name])
    (hlast : q.getLast? ≠ some '/')
    (hnul : ¬ Char.ofNat 0 ∈ q) (hlong : ¬ PATH_MAX ≤ byteLen q)
    (h1 : name ≠ ['.']) (h2 : name ≠ ['.', '.']) (hlen : ¬ NAME_MAX < byteLen name)
    (hl : Node.lookup name es = some (.file rd c)) :
    fs.resolve q = .ok (.file rd c) := by
  obtain ⟨b, loc, hst, hcur⟩ := rootState_of_resolve fs _ hroot
  have hloc : fs.locate q = .ok (b, (name, Node.file rd c) :: loc) := by
    rw [locate_below fs q [name] hq hr hseg, if_neg hnul, if_neg hlong, hst]
    apply follow_of_walk_done
    rw [walk_child fs.root loc es name [] hcur h1 h2 hlen, hl]
    rfl
  simp [FS.resolve, hloc, Node.current, hlast]

/-- Resolution of `web/dist` when the static root can be resolved. -/
theorem resolve_root_name (fs : FS) (n : Node) (hroot : fs.resolve staticDir = .ok n) :
    fs.resolve "web/dist".toList = .ok n := by
  obtain ⟨b, loc, hst, hcur⟩ := rootState_of_resolve fs _ hroot
  have hl : fs.locate "web/dist".toList = .ok (b, loc) := by
    rw [locate_below fs "web/dist".toList [] (by decide) (by decide) (by decide),
      if_neg (by decide), if_neg (by decide), hst]
    exact follow_of_walk_done _ _ _ _ _ rfl
  have hlast : ("web/dist".toList).getLast? ≠ some '/' := by decide
  simp only [FS.resolve, hl]
  rw [if_neg (fun h => hlast h.1), hcur]

/-- The real path of what `http.Dir(staticDir)` opened extends the real path of the static
root, when no symbolic link was followed below the static root. -/
theorem realpath_fullName (fs : FS) (n : Str) (node : Node)
    (hres : fs.resolve (http.Dir.fullName staticDir n) = .ok node)
    (hlinks : fs.linksFollowed (http.Dir.fullName staticDir n) = fs.linksFollowed staticDir) :
    ∃ rp0 rp1, fs.realpath staticDir = .ok rp0 ∧
      fs.realpath (http.Dir.fullName staticDir n) = .ok rp1 ∧ rp0 <+: rp1 := by
  obtain ⟨rest, hdd, hl⟩ := locate_fullName fs n
  rcases hloc : fs.locate (http.Dir.fullName staticDir n) with e | ⟨b1, loc1⟩
  · simp [FS.resolve, hloc] at hres
  · rw [hloc] at hl
    by_cases h1 : Char.ofNat 0 ∈ http.Dir.fullName staticDir n
    · rw [if_pos h1] at hl; simp at hl
    · rw [if_neg h1] at hl
      by_cases h2 : PATH_MAX ≤ byteLen (http.Dir.fullName staticDir n)
      · rw [if_pos h2] at hl; simp at hl
      · rw [if_neg h2] at hl
        rcases hrs : rootState fs with e | ⟨b0, loc0⟩
        · rw [hrs] at hl; simp at hl
        · rw [hrs] at hl
          simp only at hl
          have hb0 : b0 ≤ MAXSYMLINKS := by
            unfold rootState at hrs
            rcases hst : fs.start staticDir with e | l0
            · rw [hst] at hrs; simp at hrs
            · rw [hst] at hrs
              exact follow_budget_le _ _ _ _ _ _ hrs
          have hb1 : b1 ≤ b0 := follow_budget_le _ _ _ _ _ _ hl.symm
          have hls : fs.locate staticDir = .ok (b0, loc0) := by
            rw [locate_staticDir, hrs]
          have hbb : b1 = b0 := by
            simp only [FS.linksFollowed, hloc, hls, Except.ok.injEq] at hlinks
            omega
          subst hbb
          have hw := walk_of_follow_same _ _ _ _ _ hl.symm
          have hsuf := walk_done_suffix fs.root rest hdd _ _ hw
          refine ⟨loc0.reverse.map Prod.fst, loc1.reverse.map Prod.fst, ?_, ?_, ?_⟩
          · simp [FS.realpath, hls]
          · simp [FS.realpath, hloc]
          · obtain ⟨t, ht⟩ := hsuf
            rw [← ht]
            simp

/-! ## The two branches of the handler -/

/-- A candidate that resolves to a regular file is not routed to the fallback. -/
theorem not_fallback_of_file (fs : FS) (q : Str) (rd : Bool) (content : Str)
    (h : fs.resolve q = .ok (.file rd content)) :
    ¬ (fs.stat q = .error .ENOENT ∨ fs.stat q = .ok ⟨true⟩) := by
  have hstat : fs.stat q = .ok ⟨false⟩ := by
    simp [FS.stat, h, Node.isDirectory]
  rw [hstat]; simp

/-- The fallback hands `index.html` to `serveContent` when it is a readable regular file
and the URL path neither has a `..` element nor ends in `/index.html`. -/
theorem serveFileResponse_index (cond : http.Conditions) (r : http.Request) (fs : FS)
    (content : Str)
    (hdd : http.containsDotDot r.Path = false)
    (hsuf : strings.HasSuffix r.Path http.indexPage = false)
    (hidx : fs.resolve indexFile = .ok (.file true content)) :
    http.serveFileResponse cond r indexFile fs
      = some (http.serveContent cond r ⟨indexFile, .file true content⟩ content) := by
  simp only [http.serveFileResponse, hdd, split_indexFile]
  rw [if_neg (by simp)]
  have h := serveFile_regular cond r "web/dist/".toList "index.html".toList false fs content
    hsuf (by rw [fullName_index]; exact hidx) (by simp) (by simp)
  rw [h, fullName_index]

/-- The file server hands the candidate to `serveContent` when it is a readable regular
file, the `..` elements of the URL path do not climb above the static root, and the URL
path ends neither in `/index.html` nor in `/`. -/
theorem fileHandlerResponse_regular (cond : http.Conditions) (r : http.Request) (fs : FS)
    (content : Str)
    (hclimb : climbsAbove (segments r.Path) 0 = false)
    (hsuf : strings.HasSuffix (http.upath r.Path) http.indexPage = false)
    (hslash : (http.upath r.Path).getLast? ≠ some '/')
    (hcand : fs.resolve (candidate r) = .ok (.file true content)) :
    http.fileHandlerResponse cond staticDir r fs
      = some (http.serveContent cond { r with Path := http.upath r.Path }
          ⟨candidate r, .file true content⟩ content) := by
  have hfull : http.Dir.fullName staticDir (path.Clean (http.upath r.Path)) = candidate r :=
    fullName_upath r.Path hclimb
  have h := serveFile_regular cond { r with Path := http.upath r.Path } staticDir
    (path.Clean (http.upath r.Path)) true fs content hsuf (by rw [hfull]; exact hcand)
    (fun _ => upath_ne_nil r.Path) (fun _ => hslash)
  rw [hfull] at h
  exact h

theorem with_path_self (r : http.Request) (hpre : strings.HasPrefix r.Path ['/'] = true) :
    ({ r with Path := http.upath r.Path } : http.Request) = r := by
  rw [upath_rooted r.Path hpre]

/-- The status of an error that is not-exist or not-a-directory is 404 or 500. -/
theorem toHTTPError_missing (e : Errno) (he : e = .ENOENT ∨ e = .ENOTDIR) :
    (http.toHTTPError e).2 = 404 ∨ (http.toHTTPError e).2 = 500 := by
  rcases he with rfl | rfl
  · left; rfl
  · right; rfl

/-- With `index.html` missing the fallback answers 404 or 500, or 400 for a URL path with
a `..` element, unless the URL path ends in `/index.html`. -/
theorem fallback_missing (cond : http.Conditions) (r : http.Request) (fs : FS) (e : Errno)
    (hmiss : fs.stat indexFile = .error e) (he : e = .ENOENT ∨ e = .ENOTDIR)
    (hsuf : strings.HasSuffix r.Path http.indexPage = false) :
    ∃ resp, http.serveFileResponse cond r indexFile fs = some resp ∧
      (resp.status = 404 ∨ resp.status = 500 ∨
        (resp.status = 400 ∧ http.containsDotDot r.Path = true)) := by
  by_cases hdd : http.containsDotDot r.Path = true
  · refine ⟨http.serveError "invalid URL path".toList http.StatusBadRequest, ?_,
      Or.inr (Or.inr ⟨rfl, hdd⟩)⟩
    simp only [http.serveFileResponse, hdd, if_true]
  · have hdd2 : http.containsDotDot r.Path = false := by simpa using hdd
    have hres : fs.resolve (http.Dir.fullName "web/dist/".toList "index.html".toList)
        = .error e := by
      rw [fullName_index]; exact (stat_error_iff fs _ _).mp hmiss
    have key : ∀ e2, http.Dir.Open "web/dist/".toList "index.html".toList fs = .error e2 →
        (e2 = .ENOENT ∨ e2 = .ENOTDIR) →
        ∃ resp, http.serveFileResponse cond r indexFile fs = some resp ∧
          (resp.status = 404 ∨ resp.status = 500 ∨
            (resp.status = 400 ∧ http.containsDotDot r.Path = true)) := by
      intro e2 hopen he2
      refine ⟨http.serveError (http.toHTTPError e2).1 (http.toHTTPError e2).2, ?_, ?_⟩
      · simp only [http.serveFileResponse, hdd2, split_indexFile]
        rw [if_neg (by simp)]
        exact serveFile_error cond r _ _ false fs e2 hsuf hopen
      · rcases toHTTPError_missing e2 he2 with h | h
        · exact Or.inl h
        · exact Or.inr (Or.inl h)
    rcases Dir_Open_error _ _ fs _ hres with h | h
    · exact key e h he
    · exact key .ENOENT h (Or.inl rfl)

/-- With no static root the file server answers 404 or 500, unless the URL path ends in
`/index.html`. -/
theorem fileServer_missing (cond : http.Conditions) (r : http.Request) (fs : FS) (e : Errno)
    (hroot : fs.stat staticDir = .error e) (he : e = .ENOENT ∨ e = .ENOTDIR)
    (hsuf : strings.HasSuffix (http.upath r.Path) http.indexPage = false) :
    ∃ resp, http.fileHandlerResponse cond staticDir r fs = some resp ∧
      (resp.status = 404 ∨ resp.status = 500) := by
  have key : ∀ e2, fs.resolve (http.Dir.fullName staticDir (path.Clean (http.upath r.Path)))
      = .error e2 → (http.toHTTPError e2).2 = 404 ∨ (http.toHTTPError e2).2 = 500 →
      ∃ resp, http.fileHandlerResponse cond staticDir r fs = some resp ∧
        (resp.status = 404 ∨ resp.status = 500) := by
    intro e2 he2 hst
    rcases Dir_Open_error _ _ fs _ he2 with h | h
    · exact ⟨_, serveFile_error cond _ _ _ true fs e2 hsuf h, hst⟩
    · exact ⟨_, serveFile_error cond _ _ _ true fs .ENOENT hsuf h, Or.inl rfl⟩
  rcases resolve_fullName_error fs (path.Clean (http.upath r.Path)) e hroot with h | h | h
  · exact key _ h (Or.inr rfl)
  · exact key _ h (Or.inr rfl)
  · exact key _ h (toHTTPError_missing e he)

/-- A URL path that ends in `/index.html` still does so with a leading slash supplied. -/
theorem hasSuffix_of_upath (p : Str)
    (h : strings.HasSuffix (http.upath p) http.indexPage = false) :
    strings.HasSuffix p http.indexPage = false := by
  unfold http.upath at h
  by_cases hp : strings.HasPrefix p ['/'] = true
  · rw [if_pos hp] at h; exact h
  · rw [if_neg hp] at h
    by_contra hne
    have h1 : strings.HasSuffix p http.indexPage = true := by simpa using hne
    have h2 := List.isSuffixOf_iff_suffix.mp h1
    have h3 : http.indexPage <:+ '/' :: p := h2.trans (List.suffix_cons _ _)
    have h4 := List.isSuffixOf_iff_suffix.mpr h3
    simp only [strings.HasSuffix] at h
    rw [h] at h4
    simp at h4

/-- Whatever the handler sends as file bytes or as a listing was read through a name that
`http.Dir(staticDir)` builds, from what that name resolves to. -/
theorem handler_readFrom (cond : http.Conditions) (r : http.Request) (fs : FS)
    (resp : http.Response) (nm : Str)
    (hresp : (handler cond r fs).1 = some resp) (hsrc : resp.body.source = some nm) :
    (∃ n, nm = http.Dir.fullName staticDir n) ∧ readFrom fs resp.body nm := by
  rw [handler_eq] at hresp
  by_cases hc : fs.stat (candidate r) = .error .ENOENT ∨ fs.stat (candidate r) = .ok ⟨true⟩
  · simp only [if_pos hc, http.serveFileResponse, split_indexFile] at hresp
    by_cases hdd : http.containsDotDot r.Path = true
    · simp only [hdd, if_true, Option.some.injEq] at hresp
      subst hresp
      simp [http.serveError, http.Body.source] at hsrc
    · simp only [hdd, Bool.false_eq_true, if_false] at hresp
      obtain ⟨h1, h2⟩ := serveFile_readFrom cond r _ _ false fs resp nm hresp hsrc
      refine ⟨?_, h2⟩
      rcases h1 with h1 | h1
      · exact ⟨_, by rw [h1, fullName_index_static]⟩
      · exact ⟨_, by rw [h1, fullName_index_index_static]⟩
  · simp only [if_neg hc, http.fileHandlerResponse] at hresp
    obtain ⟨h1, h2⟩ := serveFile_readFrom cond _ _ _ true fs resp nm hresp hsrc
    refine ⟨?_, h2⟩
    rcases h1 with h1 | h1
    · exact ⟨_, h1⟩
    · exact ⟨_, h1⟩

/-! ## The claims -/

/-- C1, the code at the failing input: in the scenario the candidate for `/app.js/x` is
`web/dist/app.js/x`, which does not exist (`app.js` is a regular file, so `os.Stat` fails,
with `ENOTDIR`); `os.IsNotExist` is false for this error, so the handler does not serve the
fallback document but calls the file server, which answers 404. -/
theorem C1_code_at_failing_input :
    candidate (GET "/app.js/x".toList) = "web/dist/app.js/x".toList ∧
    scenario.stat (candidate (GET "/app.js/x".toList)) = .error .ENOTDIR ∧
    os.IsNotExist (errOf (scenario.stat (candidate (GET "/app.js/x".toList)))) = false ∧
    (route (GET "/app.js/x".toList) scenario).1 = Route.fileServer (GET "/app.js/x".toList) ∧
    (route (GET "/app.js/x".toList) scenario).1 ≠ Route.fallback indexFile ∧
    (handler plain (GET "/app.js/x".toList) scenario).1
      = some ⟨404, none, .text "404 page not found\n".toList⟩ := by
  decide

/-- C2, as stated, fails: in the scenario `/foo/index.html` resolves to a missing path and
`index.html` exists with contents "A", yet the response is a 301 redirect to `./` with an
empty body (`http.ServeFile` redirects every URL path ending in `/index.html`).  The other
conditions of the amended claim are forced in the same way: `/app.js/x` is missing with
`ENOTDIR` and gets 404 from the file server; `/x/../y` and `/x\..\y` are missing and get
400 (`http.ServeFile` rejects a `..` between slashes or backslashes); a `HEAD` request gets
no body; a request with `If-None-Match: *` gets 304; and an `index.html` that exists but
may not be read gives 403. -/
theorem C2_counterexample :
    scenario.stat (candidate (GET "/foo/index.html".toList)) = .error .ENOENT ∧
    scenario.resolve indexFile = .ok (.file true "A".toList) ∧
    (route (GET "/foo/index.html".toList) scenario).1 = Route.fallback indexFile ∧
    (handler plain (GET "/foo/index.html".toList) scenario).1
      = some ⟨301, some "./".toList, .empty⟩ ∧
    scenario.stat (candidate (GET "/app.js/x".toList)) = .error .ENOTDIR ∧
    (handler plain (GET "/app.js/x".toList) scenario).1
      = some ⟨404, none, .text "404 page not found\n".toList⟩ ∧
    scenario.stat (candidate (GET "/x/../y".toList)) = .error .ENOENT ∧
    (handler plain (GET "/x/../y".toList) scenario).1
      = some ⟨400, none, .text "invalid URL path\n".toList⟩ ∧
    segments "/x\\..\\y".toList = ["x\\..\\y".toList] ∧
    scenario.stat (candidate (GET "/x\\..\\y".toList)) = .error .ENOENT ∧
    (handler plain (GET "/x\\..\\y".toList) scenario).1
      = some ⟨400, none, .text "invalid URL path\n".toList⟩ ∧
    scenario.stat (candidate (HEAD "/unknown/route".toList)) = .error .ENOENT ∧
    (handler plain (HEAD "/unknown/route".toList) scenario).1 = some ⟨200, none, .empty⟩ ∧
    (handler starCond (GETIfNoneMatch "/unknown/route".toList) scenario).1
      = some ⟨304, none, .empty⟩ ∧
    unreadableIndex.stat indexFile = .ok ⟨false⟩ ∧
    unreadableIndex.stat (candidate (GET "/unknown".toList)) = .error .ENOENT ∧
    (handler plain (GET "/unknown".toList) unreadableIndex).1
      = some ⟨403, none, .text "403 Forbidden\n".toList⟩ := by
  and_intros <;> first | decide | rfl

/-- C2, amended: for every request whose method is not `HEAD`, which carries none of the
headers `If-Match`, `If-Unmodified-Since`, `If-None-Match`, `If-Modified-Since` and `Range`,
and whose URL path has no `..` between slashes or backslashes (`containsDotDot`) and does
not end in `/index.html`: if `os.Stat` on the candidate reports not-exist (`ENOENT`) or a
directory, and `index.html` under the static root is a readable regular file, the response
has status 200 and its body is the contents of that `index.html`. -/
theorem C2_fallback_body (cond : http.Conditions) (r : http.Request) (fs : FS) (content : Str)
    (hcand : fs.stat (candidate r) = .error .ENOENT ∨ fs.stat (candidate r) = .ok ⟨true⟩)
    (hdd : http.containsDotDot r.Path = false)
    (hsuf : strings.HasSuffix r.Path http.indexPage = false)
    (hm : r.Method ≠ "HEAD".toList)
    (hc : http.carriesConditions r = false)
    (hidx : fs.resolve indexFile = .ok (.file true content)) :
    (handler cond r fs).1 = some ⟨200, none, .file indexFile content⟩ := by
  rw [handler_eq, if_pos hcand, serveFileResponse_index cond r fs content hdd hsuf hidx,
    serveContent_plain cond r _ content hc hm]

/-- C2, amended, at the requests `/unknown/route` and `/` of the scenario. -/
theorem C2_fallback_body_witness :
    (handler plain (GET "/unknown/route".toList) scenario).1
      = some ⟨200, none, .file indexFile "A".toList⟩ ∧
    (handler plain (GET "/".toList) scenario).1
      = some ⟨200, none, .file indexFile "A".toList⟩ :=
  ⟨C2_fallback_body plain (GET "/unknown/route".toList) scenario "A".toList
      (Or.inl (by decide)) (by decide) (by decide) (by decide) (by decide) (by rfl),
   C2_fallback_body plain (GET "/".toList) scenario "A".toList
      (Or.inr (by decide)) (by decide) (by decide) (by decide) (by decide) (by rfl)⟩

/-- C3, as stated, fails: in the scenario `/index.html` resolves to the existing regular
file `web/dist/index.html` with bytes "A", yet the response is a 301 redirect to `./`
with an empty body (the file server redirects every URL path ending in `/index.html`).
The other conditions of the amended claim are forced in the same way: `/app.js/` resolves
to the regular file `web/dist/app.js` and is redirected to `../app.js`; `/../dist/app.js`,
whose `..` climbs above the static root, resolves to the same file but gets 404, because
the file server opens `web/dist/dist/app.js`; a regular file that the server may not read
gets 403; a `HEAD` request gets no body; and a request with `If-None-Match: *` gets 304. -/
theorem C3_counterexample :
    candidate (GET "/index.html".toList) = "web/dist/index.html".toList ∧
    scenario.resolve (candidate (GET "/index.html".toList)) = .ok (.file true "A".toList) ∧
    (handler plain (GET "/index.html".toList) scenario).1
      = some ⟨301, some "./".toList, .empty⟩ ∧
    scenario.resolve (candidate (GET "/app.js/".toList)) = .ok (.file true "B".toList) ∧
    (handler plain (GET "/app.js/".toList) scenario).1
      = some ⟨301, some "../app.js".toList, .empty⟩ ∧
    candidate (GET "/../dist/app.js".toList) = "web/dist/app.js".toList ∧
    climbsAbove (segments "/../dist/app.js".toList) 0 = true ∧
    http.Dir.fullName staticDir (path.Clean "/../dist/app.js".toList)
      = "web/dist/dist/app.js".toList ∧
    (handler plain (GET "/../dist/app.js".toList) scenario).1
      = some ⟨404, none, .text "404 page not found\n".toList⟩ ∧
    site.resolve (candidate (GET "/secret.txt".toList)) = .ok (.file false "S".toList) ∧
    (handler plain (GET "/secret.txt".toList) site).1
      = some ⟨403, none, .text "403 Forbidden\n".toList⟩ ∧
    (handler plain (HEAD "/app.js".toList) scenario).1 = some ⟨200, none, .empty⟩ ∧
    (handler starCond (GETIfNoneMatch "/app.js".toList) scenario).1
      = some ⟨304, none, .empty⟩ := by
  and_intros <;> first | decide | rfl

/-- C3, amended: for every request whose method is not `HEAD`, which carries none of the
headers `If-Match`, `If-Unmodified-Since`, `If-None-Match`, `If-Modified-Since` and `Range`,
and whose URL path has no `..` element that climbs above the static root and, with a
leading slash supplied when it has none, ends neither in `/index.html` nor in `/`: if the
candidate is a readable regular file, the response has status 200 and its body is that
file's bytes. -/
theorem C3_file_body (cond : http.Conditions) (r : http.Request) (fs : FS) (content : Str)
    (hclimb : climbsAbove (segments r.Path) 0 = false)
    (hsuf : strings.HasSuffix (http.upath r.Path) http.indexPage = false)
    (hslash : (http.upath r.Path).getLast? ≠ some '/')
    (hm : r.Method ≠ "HEAD".toList)
    (hc : http.carriesConditions r = false)
    (hcand : fs.resolve (candidate r) = .ok (.file true content)) :
    (handler cond r fs).1 = some ⟨200, none, .file (candidate r) content⟩ := by
  rw [handler_eq, if_neg (not_fallback_of_file fs _ true content hcand),
    fileHandlerResponse_regular cond r fs content hclimb hsuf hslash hcand,
    serveContent_plain cond { r with Path := http.upath r.Path } _ content hc hm]

/-- C3, amended, at the requests `/app.js`, `/assets/../app.js` and `app.js` (without
leading slash) on the second static root. -/
theorem C3_file_body_witness :
    (handler plain (GET "/app.js".toList) site).1
      = some ⟨200, none, .file "web/dist/app.js".toList "B".toList⟩ ∧
    (handler plain (GET "/assets/../app.js".toList) site).1
      = some ⟨200, none, .file "web/dist/app.js".toList "B".toList⟩ ∧
    (handler plain (GET "app.js".toList) site).1
      = some ⟨200, none, .file "web/dist/app.js".toList "B".toList⟩ :=
  ⟨C3_file_body plain (GET "/app.js".toList) site "B".toList (by decide) (by decide)
      (by decide) (by decide) (by decide) (by rfl),
   C3_file_body plain (GET "/assets/../app.js".toList) site "B".toList (by decide) (by decide)
      (by decide) (by decide) (by decide) (by rfl),
   C3_file_body plain (GET "app.js".toList) site "B".toList (by decide) (by decide)
      (by decide) (by decide) (by decide) (by rfl)⟩

/-- C4, as stated, fails: for the request path `/../../etc/passwd`, whose `..` elements
climb above the static root, the candidate is `etc/passwd`, outside the static root; and
with two more `..` elements the candidate is `../../etc/passwd`, which in the scenario is
the file `/etc/passwd` that the handler then stats. -/
theorem C4_counterexample :
    filepath.Join [staticDir, "/../../etc/passwd".toList] = "etc/passwd".toList ∧
    ¬ withinRoot (filepath.Join [staticDir, "/../../etc/passwd".toList]) ∧
    climbsAbove (segments "/../../etc/passwd".toList) 0 = true ∧
    filepath.Join [staticDir, "/../../../../etc/passwd".toList] = "../../etc/passwd".toList ∧
    scenario.stat (candidate (GET "/../../../../etc/passwd".toList)) = .ok ⟨false⟩ := by
  decide

/-- C4, amended: for every request path whose `..` elements do not climb above the static
root (reading the elements of the path from left to right, with `.` staying, a name going
one level down and `..` going one level up, no `..` is met at level zero), the candidate
`filepath.Join(staticDir, p)` stays within the static root: it is `web/dist` itself or a
path below it, and has no `..` element. -/
theorem C4_candidate_within (p : Str) (h : climbsAbove (segments p) 0 = false) :
    withinRoot (filepath.Join [staticDir, p]) := by
  rw [Join_staticDir_noClimb p h]
  obtain ⟨_, hs⟩ := elemRun_rooted (segments p) [] (by simp) (segments_isElem p)
  exact withinRoot_finish _ (fun e he => (hs e he).1) (fun hm => (hs _ hm).2.2 rfl)

/-- C4, amended, at the request paths `/assets/../app.js` and `/a/b/../../c/./..`, which
have `..` elements that stay inside the static root. -/
theorem C4_candidate_within_witness :
    withinRoot (filepath.Join [staticDir, "/assets/../app.js".toList]) ∧
    withinRoot (filepath.Join [staticDir, "/a/b/../../c/./..".toList]) :=
  ⟨C4_candidate_within "/assets/../app.js".toList (by decide),
   C4_candidate_within "/a/b/../../c/./..".toList (by decide)⟩

/-- C5, as stated, fails: when the static root of the scenario has the symbolic link `leak`
pointing to `/etc/passwd`, the request `/leak` is answered with the bytes of `/etc/passwd`,
a file outside the static root (`os.Stat` and `os.Open` follow symbolic links). -/
theorem C5_counterexample :
    linked.realpath staticDir
      = .ok ["srv".toList, "app".toList, "web".toList, "dist".toList] ∧
    linked.realpath "web/dist/leak".toList = .ok ["etc".toList, "passwd".toList] ∧
    linked.resolve "/etc/passwd".toList = .ok (.file true "root:x:0:0".toList) ∧
    linked.linksFollowed staticDir = .ok 0 ∧
    linked.linksFollowed "web/dist/leak".toList = .ok 1 ∧
    (route (GET "/leak".toList) linked).1 = Route.fileServer (GET "/leak".toList) ∧
    (handler plain (GET "/leak".toList) linked).1
      = some ⟨200, none, .file "web/dist/leak".toList "root:x:0:0".toList⟩ := by
  and_intros <;> first | decide | rfl

/-- C5, amended: whatever the request, the bytes of a file (whole or in ranges) or the
listing of a directory in the response body are read through a path name `nm` that is
`web/dist` or lies below it and has no `..` element; file bytes are the contents, or
pieces of the contents, of the readable regular file that `nm` resolves to; and when
resolving `nm` follows no more symbolic links than resolving the static root does (none
below the static root), the real path of what was read extends the real path of the
static root, so that it lies inside the static root. -/
theorem C5_body_from_static_root (cond : http.Conditions) (r : http.Request) (fs : FS)
    (resp : http.Response) (nm : Str)
    (hresp : (handler cond r fs).1 = some resp) (hsrc : resp.body.source = some nm) :
    withinRoot nm ∧
    (∀ c, resp.body = .file nm c → fs.resolve nm = .ok (.file true c)) ∧
    (∀ parts, resp.body = .ranges nm parts →
      ∃ c, fs.resolve nm = .ok (.file true c) ∧
        ∀ part ∈ parts, ∃ start len, part = (c.drop start).take len) ∧
    (fs.linksFollowed nm = fs.linksFollowed staticDir →
      ∃ rp0 rp1, fs.realpath staticDir = .ok rp0 ∧ fs.realpath nm = .ok rp1 ∧
        rp0 <+: rp1) := by
  obtain ⟨⟨n, hn⟩, ⟨node, hnode⟩, hfile, hranges⟩ :=
    handler_readFrom cond r fs resp nm hresp hsrc
  subst hn
  exact ⟨withinRoot_fullName n, hfile, hranges, realpath_fullName fs n node hnode⟩

/-- C5, amended, at the request `/app.js` of the scenario: the bytes sent are those of
`web/dist/app.js`, whose real path extends that of the static root. -/
theorem C5_body_from_static_root_witness :
    withinRoot "web/dist/app.js".toList ∧
    scenario.resolve "web/dist/app.js".toList = .ok (.file true "B".toList) ∧
    ∃ rp0 rp1, scenario.realpath staticDir = .ok rp0 ∧
      scenario.realpath "web/dist/app.js".toList = .ok rp1 ∧ rp0 <+: rp1 :=
  have h := C5_body_from_static_root plain (GET "/app.js".toList) scenario
    ⟨200, none, .file "web/dist/app.js".toList "B".toList⟩ "web/dist/app.js".toList
    (by decide) (by decide)
  ⟨h.1, h.2.1 "B".toList rfl, h.2.2.2 (by decide)⟩

/-- C6: in every file system whose static root is a directory containing exactly
`index.html` (a readable file with contents `a`, "A" in the scenario) and `app.js` (a
readable file with contents `b`, "B" in the scenario), the response body of the handler for
`GET /app.js` is `b`, for `GET /unknown/route` it is `a`, and for `GET /` it is `a`; each
with status 200. -/
theorem C6_scenario (cond : http.Conditions) (fs : FS) (es : List (Str × Node)) (a b : Str)
    (hroot : fs.resolve staticDir = .ok (.dir es))
    (hidx : Node.lookup "index.html".toList es = some (.file true a))
    (happ : Node.lookup "app.js".toList es = some (.file true b))
    (hexact : ∀ n, n ≠ "index.html".toList → n ≠ "app.js".toList → Node.lookup n es = none) :
    (handler cond (GET "/app.js".toList) fs).1
      = some ⟨200, none, .file "web/dist/app.js".toList b⟩ ∧
    (handler cond (GET "/unknown/route".toList) fs).1
      = some ⟨200, none, .file "web/dist/index.html".toList a⟩ ∧
    (handler cond (GET "/".toList) fs).1
      = some ⟨200, none, .file "web/dist/index.html".toList a⟩ := by
  have hindex : fs.resolve indexFile = .ok (.file true a) := by
    rw [indexFile_eq]
    exact resolve_child_file fs es _ "index.html".toList true a hroot (by decide) (by decide)
      (by decide) (by decide) (by decide) (by decide) (by decide) (by decide) (by decide) hidx
  have happjs : fs.resolve (candidate (GET "/app.js".toList)) = .ok (.file true b) := by
    have hc : candidate (GET "/app.js".toList) = "web/dist/app.js".toList := by decide
    rw [hc]
    exact resolve_child_file fs es _ "app.js".toList true b hroot (by decide) (by decide)
      (by decide) (by decide) (by decide) (by decide) (by decide) (by decide) (by decide) happ
  have hunknown : fs.stat (candidate (GET "/unknown/route".toList)) = .error .ENOENT := by
    have hc : candidate (GET "/unknown/route".toList) = "web/dist/unknown/route".toList := by
      decide
    rw [stat_error_iff, hc]
    exact resolve_child_missing fs es _ "unknown".toList ["route".toList] hroot (by decide)
      (by decide) (by decide) (by decide) (by decide) (by decide) (by decide) (by decide)
      (hexact _ (by decide) (by decide))
  have hrootdir : fs.stat (candidate (GET "/".toList)) = .ok ⟨true⟩ := by
    have hc : candidate (GET "/".toList) = "web/dist".toList := by decide
    rw [hc]
    unfold FS.stat
    rw [resolve_root_name fs _ hroot]
    rfl
  refine ⟨?_, ?_, ?_⟩
  · rw [handler_eq, if_neg (not_fallback_of_file fs _ true b happjs),
      fileHandlerResponse_regular cond (GET "/app.js".toList) fs b (by decide) (by decide)
        (by decide) happjs,
      serveContent_plain cond _ _ b (by decide) (by decide)]
    rfl
  · rw [← indexFile_eq, handler_eq, if_pos (Or.inl hunknown),
      serveFileResponse_index cond (GET "/unknown/route".toList) fs a (by decide) (by decide)
        hindex,
      serveContent_plain cond _ _ a (by decide) (by decide)]
  · rw [← indexFile_eq, handler_eq, if_pos (Or.inr hrootdir),
      serveFileResponse_index cond (GET "/".toList) fs a (by decide) (by decide) hindex,
      serveContent_plain cond _ _ a (by decide) (by decide)]

/-- C6 in the scenario file system, with the contents "A" and "B". -/
theorem C6_scenario_witness :
    (handler plain (GET "/app.js".toList) scenario).1
      = some ⟨200, none, .file "web/dist/app.js".toList "B".toList⟩ ∧
    (handler plain (GET "/unknown/route".toList) scenario).1
      = some ⟨200, none, .file "web/dist/index.html".toList "A".toList⟩ ∧
    (handler plain (GET "/".toList) scenario).1
      = some ⟨200, none, .file "web/dist/index.html".toList "A".toList⟩ :=
  C6_scenario plain scenario
    [("index.html".toList, .file true "A".toList), ("app.js".toList, .file true "B".toList)]
    "A".toList "B".toList (by rfl) (by rfl) (by rfl) (by
      intro n h1 h2
      simp only [Node.lookup]
      rw [if_neg (Ne.symm h1), if_neg (Ne.symm h2)])

/-- C7, as stated, fails: with no static root at all, the request `/index.html` is routed
to the fallback branch and receives the status 301 (a redirect to `./`), which is neither
404 nor 500; and the request `/x/../y`, routed to the fallback branch too, receives 400. -/
theorem C7_counterexample :
    noSite.stat staticDir = .error .ENOENT ∧
    noSite.stat indexFile = .error .ENOENT ∧
    (route (GET "/index.html".toList) noSite).1 = Route.fallback indexFile ∧
    (handler plain (GET "/index.html".toList) noSite).1
      = some ⟨301, some "./".toList, .empty⟩ ∧
    (route (GET "/x/../y".toList) noSite).1 = Route.fallback indexFile ∧
    (handler plain (GET "/x/../y".toList) noSite).1
      = some ⟨400, none, .text "invalid URL path\n".toList⟩ := by
  decide

/-- C7, amended: if `index.html` under the static root is missing (`os.Stat` fails with
`ENOENT` or `ENOTDIR`), then for every request that the handler routes to the fallback
branch and whose URL path does not end in `/index.html`, the handler returns a response
(it does not panic) with status 404 or 500, or 400 when the URL path has a `..` between
slashes or backslashes (`containsDotDot`); and if the static root itself is missing, this
holds, whichever branch the handler takes, for every request whose URL path, with a
leading slash supplied when it has none, does not end in `/index.html`. -/
theorem C7_missing_fallback_status (cond : http.Conditions) (r : http.Request) (fs : FS) :
    ((fs.stat indexFile = .error .ENOENT ∨ fs.stat indexFile = .error .ENOTDIR) →
      (route r fs).1 = Route.fallback indexFile →
      strings.HasSuffix r.Path http.indexPage = false →
      ∃ resp, (handler cond r fs).1 = some resp ∧
        (resp.status = 404 ∨ resp.status = 500 ∨
          (resp.status = 400 ∧ http.containsDotDot r.Path = true))) ∧
    ((fs.stat staticDir = .error .ENOENT ∨ fs.stat staticDir = .error .ENOTDIR) →
      strings.HasSuffix (http.upath r.Path) http.indexPage = false →
      ∃ resp, (handler cond r fs).1 = some resp ∧
        (resp.status = 404 ∨ resp.status = 500 ∨
          (resp.status = 400 ∧ http.containsDotDot r.Path = true))) := by
  have hfall : ∀ e, fs.stat indexFile = .error e → (e = .ENOENT ∨ e = .ENOTDIR) →
      strings.HasSuffix r.Path http.indexPage = false →
      (fs.stat (candidate r) = .error .ENOENT ∨ fs.stat (candidate r) = .ok ⟨true⟩) →
      ∃ resp, (handler cond r fs).1 = some resp ∧
        (resp.status = 404 ∨ resp.status = 500 ∨
          (resp.status = 400 ∧ http.containsDotDot r.Path = true)) := by
    intro e hmiss he hsuf hc
    rw [handler_eq, if_pos hc]
    exact fallback_missing cond r fs e hmiss he hsuf
  constructor
  · intro hmiss hroute hsuf
    rw [route_eq] at hroute
    by_cases hc : fs.stat (candidate r) = .error .ENOENT ∨ fs.stat (candidate r) = .ok ⟨true⟩
    · rcases hmiss with hmiss | hmiss
      · exact hfall _ hmiss (Or.inl rfl) hsuf hc
      · exact hfall _ hmiss (Or.inr rfl) hsuf hc
    · rw [if_neg hc] at hroute
      simp at hroute
  · intro hroot hsuf
    have key : ∀ e, fs.stat staticDir = .error e → (e = .ENOENT ∨ e = .ENOTDIR) →
        ∃ resp, (handler cond r fs).1 = some resp ∧
          (resp.status = 404 ∨ resp.status = 500 ∨
            (resp.status = 400 ∧ http.containsDotDot r.Path = true)) := by
      intro e hst he
      by_cases hc : fs.stat (candidate r) = .error .ENOENT ∨ fs.stat (candidate r) = .ok ⟨true⟩
      · exact hfall e (stat_indexFile_error fs e hst) he (hasSuffix_of_upath _ hsuf) hc
      · rw [handler_eq, if_neg hc]
        obtain ⟨resp, h1, h2⟩ := fileServer_missing cond r fs e hst he hsuf
        refine ⟨resp, h1, ?_⟩
        rcases h2 with h2 | h2
        · exact Or.inl h2
        · exact Or.inr (Or.inl h2)
    rcases hroot with hroot | hroot
    · exact key _ hroot (Or.inl rfl)
    · exact key _ hroot (Or.inr rfl)

/-- C7, amended, with no static root: `/app.js`, routed to the fallback branch, receives
404; a URL path with a NUL byte, which `os.Stat` refuses with `EINVAL`, goes to the file
server and receives 500; and where `web` is a regular file, `/app.js` goes to the file
server and receives 404. -/
theorem C7_missing_fallback_status_witness :
    (∃ resp, (handler plain (GET "/app.js".toList) noSite).1 = some resp ∧
      (resp.status = 404 ∨ resp.status = 500 ∨
        (resp.status = 400 ∧ http.containsDotDot "/app.js".toList = true))) ∧
    (∃ resp, (handler plain (GET nulPath) noSite).1 = some resp ∧
      (resp.status = 404 ∨ resp.status = 500 ∨
        (resp.status = 400 ∧ http.containsDotDot nulPath = true))) ∧
    (∃ resp, (handler plain (GET "/app.js".toList) flatSite).1 = some resp ∧
      (resp.status = 404 ∨ resp.status = 500 ∨
        (resp.status = 400 ∧ http.containsDotDot "/app.js".toList = true))) ∧
    (route (GET "/app.js".toList) flatSite).1 = Route.fileServer (GET "/app.js".toList) ∧
    (handler plain (GET "/app.js".toList) flatSite).1
      = some ⟨404, none, .text "404 page not found\n".toList⟩ ∧
    (handler plain (GET "/app.js".toList) noSite).1
      = some ⟨404, none, .text "404 page not found\n".toList⟩ ∧
    (handler plain (GET nulPath) noSite).1
      = some ⟨500, none, .text "500 Internal Server Error\n".toList⟩ :=
  ⟨(C7_missing_fallback_status plain (GET "/app.js".toList) noSite).1 (Or.inl (by decide))
      (by decide) (by decide),
   (C7_missing_fallback_status plain (GET nulPath) noSite).2 (Or.inl (by decide))
      (by decide),
   (C7_missing_fallback_status plain (GET "/app.js".toList) flatSite).2 (Or.inr (by decide))
      (by decide),
   by decide, by decide, by decide, by decide⟩

/-- C9: the fallback is served if and only if the error of `os.Stat` on the candidate
satisfies `os.IsNotExist` or the stat succeeds on a directory; when `os.Stat` fails with
any other error (`ENOTDIR`, `EACCES`, ...), the handler does not serve the fallback and
delegates the request to the file server. -/
theorem C9_fallback_iff (cond : http.Conditions) (r : http.Request) (fs : FS) :
    ((route r fs).1 = Route.fallback indexFile ↔
        (os.IsNotExist (errOf (fs.stat (candidate r))) = true ∨
          fs.stat (candidate r) = .ok ⟨true⟩)) ∧
    (∀ e, fs.stat (candidate r) = .error e → os.IsNotExist (some e) = false →
        (route r fs).1 = Route.fileServer r ∧
        handler cond r fs = http.FileServer cond staticDir r fs) := by
  constructor
  · rw [route_eq]
    rcases fs.stat (candidate r) with e | ⟨⟨_ | _⟩⟩
    · cases e <;> simp [errOf, os.IsNotExist]
    · simp [errOf, os.IsNotExist]
    · simp [errOf, os.IsNotExist]
  · intro e he hne
    have hn : ¬ (fs.stat (candidate r) = .error .ENOENT ∨ fs.stat (candidate r) = .ok ⟨true⟩) := by
      rw [he]
      cases e with
      | ENOENT => simp [os.IsNotExist] at hne
      | _ => simp
    rw [route_eq, handler_eq, if_neg hn, if_neg hn]
    exact ⟨rfl, rfl⟩

/-- C9 at concrete requests: `/app.js/x` (a path component is a regular file, `ENOTDIR`)
and `/private/x` (permission denied, `EACCES`) are delegated to the file server. -/
theorem C9_fallback_iff_witness :
    (route (GET "/app.js/x".toList) site).1 = Route.fileServer (GET "/app.js/x".toList) ∧
    (route (GET "/private/x".toList) site).1 = Route.fileServer (GET "/private/x".toList) :=
  ⟨((C9_fallback_iff plain (GET "/app.js/x".toList) site).2 .ENOTDIR (by decide)
      (by decide)).1,
   ((C9_fallback_iff plain (GET "/private/x".toList) site).2 .EACCES (by decide)
      (by decide)).1⟩

/-- C10, as stated, fails: the URL path `/index.html` begins with `/` and has no `..`
element, the path the handler stats and the path the file server would open are both
`web/dist/index.html`, and the handler classifies it as a regular file and calls the file
server; yet no file is served: the answer is a 301 redirect to `./` with an empty body.
Likewise `/app.js/` is classified as the regular file `web/dist/app.js` and redirected to
`../app.js`, and a regular file that the server may not read is answered with 403. -/
theorem C10_counterexample :
    strings.HasPrefix "/index.html".toList ['/'] = true ∧
    ['.', '.'] ∉ segments "/index.html".toList ∧
    filepath.Join [staticDir, "/index.html".toList] = "web/dist/index.html".toList ∧
    http.Dir.fullName staticDir (path.Clean "/index.html".toList)
      = "web/dist/index.html".toList ∧
    scenario.stat (candidate (GET "/index.html".toList)) = .ok ⟨false⟩ ∧
    (route (GET "/index.html".toList) scenario).1 = Route.fileServer (GET "/index.html".toList) ∧
    (handler plain (GET "/index.html".toList) scenario).1
      = some ⟨301, some "./".toList, .empty⟩ ∧
    scenario.stat (candidate (GET "/app.js/".toList)) = .ok ⟨false⟩ ∧
    (handler plain (GET "/app.js/".toList) scenario).1
      = some ⟨301, some "../app.js".toList, .empty⟩ ∧
    site.stat (candidate (GET "/secret.txt".toList)) = .ok ⟨false⟩ ∧
    (handler plain (GET "/secret.txt".toList) site).1
      = some ⟨403, none, .text "403 Forbidden\n".toList⟩ := by
  decide

/-- C10, amended: for every request whose URL path begins with `/` and has no `..` element,
the path the handler stats, `filepath.Join(staticDir, p)`, is the path the file server
opens for the request, which is `staticDir` joined with `path.Clean("/" + p)`; and when
this path is a readable regular file and the URL path ends neither in `/index.html` nor in
`/`, the handler's response is what the library's `serveContent` sends for the file opened
at this very path, with its bytes: for a request other than `HEAD` without conditional and
range headers, status 200 and a body equal to the bytes of the file. -/
theorem C10_stat_path_is_served_path (cond : http.Conditions) (r : http.Request) (fs : FS)
    (hpre : strings.HasPrefix r.Path ['/'] = true) (hdd : ['.', '.'] ∉ segments r.Path) :
    filepath.Join [staticDir, r.Path] = http.Dir.fullName staticDir (path.Clean r.Path) ∧
    filepath.Join [staticDir, r.Path] = filepath.Join [staticDir, path.Clean ('/' :: r.Path)] ∧
    (∀ c, fs.resolve (candidate r) = .ok (.file true c) →
      strings.HasSuffix r.Path http.indexPage = false → r.Path.getLast? ≠ some '/' →
      (handler cond r fs).1
          = some (http.serveContent cond r ⟨filepath.Join [staticDir, r.Path], .file true c⟩ c) ∧
        (r.Method ≠ "HEAD".toList → http.carriesConditions r = false →
          (handler cond r fs).1
            = some ⟨200, none, .file (filepath.Join [staticDir, r.Path]) c⟩)) := by
  have hhead := (hasPrefix_slash _).mp hpre
  have h1 := Join_eq_fullName r.Path hhead hdd
  have hup := upath_rooted r.Path hpre
  refine ⟨h1, ?_, ?_⟩
  · have hfn : ∀ n, http.Dir.fullName staticDir n
        = filepath.Join [staticDir, path.Clean ('/' :: n)] := by
      intro n
      simp only [http.Dir.fullName]
      rw [if_neg (by decide)]
    rw [← hfn]
    rw [Join_staticDir_noDotDot _ hdd]
    obtain ⟨s, hs, _, hdef⟩ := fullName_staticDir r.Path
    rw [hs, hdef, elemRun_noDotDot true _ hdd]
    simp
  · intro c hres hsuf hslash
    have hresp : (handler cond r fs).1
        = some (http.serveContent cond r ⟨filepath.Join [staticDir, r.Path], .file true c⟩ c) := by
      rw [handler_eq, if_neg (not_fallback_of_file fs _ true c hres),
        fileHandlerResponse_regular cond r fs c
          (climbsAbove_of_noDotDot _ hdd 0) (by rw [hup]; exact hsuf)
          (by rw [hup]; exact hslash) hres,
        with_path_self r hpre]
      rfl
    refine ⟨hresp, ?_⟩
    intro hm hc
    rw [hresp, serveContent_plain cond r _ c hc hm]

/-- C10, amended, at the request `/assets/./x.css` on the second static root: both paths are
`web/dist/assets/x.css` and the response carries the bytes of that file. -/
theorem C10_stat_path_is_served_path_witness :
    filepath.Join [staticDir, "/assets/./x.css".toList] = "web/dist/assets/x.css".toList ∧
    filepath.Join [staticDir, "/assets/./x.css".toList]
      = http.Dir.fullName staticDir (path.Clean "/assets/./x.css".toList) ∧
    (handler plain (GET "/assets/./x.css".toList) site).1
      = some ⟨200, none, .file (filepath.Join [staticDir, "/assets/./x.css".toList])
          "C".toList⟩ :=
  ⟨by decide,
   (C10_stat_path_is_served_path plain (GET "/assets/./x.css".toList) site (by decide)
      (by decide)).1,
   ((C10_stat_path_is_served_path plain (GET "/assets/./x.css".toList) site (by decide)
      (by decide)).2.2 "C".toList (by rfl) (by decide) (by decide)).2 (by decide) (by decide)⟩

end Duelistroses
